import Mathlib

/-!
Verification of the primitive-math evaluation engine (src/main.ts).

The engine represents an arithmetic computation as a `Value` (class `N` in
the source): a non-negative magnitude together with an ordered queue of
deferred operations.  Operations (`INC`, `DEC`, `ADD b`, `SUB b`, `MUL b`,
`DIV b`) are applied through `N.op`, which appends the operation to the
queue and drains the queue via `N.evaluate`.  `N.evaluate` maintains a
process-wide recursion-depth counter bounded at 10; since the counter is
incremented on entry and decremented on every return path, it behaves as a
call parameter, and it is modelled here as an explicit `depth` argument.

The source's mutual recursion is not structurally terminating, so the
embedding threads an explicit `fuel` argument: `Res.fuel` means the
computation was not finished within `fuel` nested calls, `Res.err` models
the constructor's `throw new Error("Negative values are impossible")`, and
`Res.ok` is a normal return.  A source computation terminates with a value
exactly when the embedding returns `Res.ok` of it for every sufficiently
large fuel.
-/

/-- Outcome of a step of the embedded interpreter: normal return, the
constructor's negative-magnitude exception, or out of fuel. -/
inductive Res (α : Type) : Type where
  | ok (a : α) : Res α
  | err : Res α
  | fuel : Res α
deriving DecidableEq, Repr

namespace Res

def bind {α β : Type} : Res α → (α → Res β) → Res β
  | .ok a, f => f a
  | .err, _ => .err
  | .fuel, _ => .fuel

instance : Monad Res where
  pure := .ok
  bind := bind

@[simp] theorem bind_ok {α β : Type} (a : α) (f : α → Res β) :
    bind (.ok a) f = f a := rfl

@[simp] theorem bind_err {α β : Type} (f : α → Res β) :
    bind (.err : Res α) f = .err := rfl

@[simp] theorem bind_fuel {α β : Type} (f : α → Res β) :
    bind (.fuel : Res α) f = .fuel := rfl

@[simp] theorem monad_bind_eq_bind {α β : Type} (x : Res α) (f : α → Res β) :
    x >>= f = bind x f := rfl

@[simp] theorem pure_eq_ok {α : Type} (a : α) : (pure a : Res α) = .ok a := rfl

end Res

mutual
/-- Operation catalogue of the engine: the two primitives and the four
derived operations, each binary operation capturing its right operand. -/
inductive OP : Type where
  | INC : OP
  | DEC : OP
  | ADD : N → OP
  | SUB : N → OP
  | MUL : N → OP
  | DIV : N → OP

/-- A Value (`class N`): current magnitude plus the queue of deferred
operations.  The magnitude is carried as an `Int` so that the source
constructor's negative check is meaningful. -/
inductive N : Type where
  | mk : Int → List OP → N
end

/-- `n.value` field of `class N`. -/
def N.value : N → Int
  | .mk v _ => v

/-- `n.deferred` field of `class N`. -/
def N.deferred : N → List OP
  | .mk _ d => d

@[simp] theorem N.value_mk (v : Int) (d : List OP) : (N.mk v d).value = v := rfl

@[simp] theorem N.deferred_mk (v : Int) (d : List OP) : (N.mk v d).deferred = d := rfl

theorem N.ext_iff {a b : N} : a = b ↔ a.value = b.value ∧ a.deferred = b.deferred := by
  cases a
  cases b
  simp [N.value, N.deferred]

/-- The `N` constructor: `if (value < 0n) throw new Error(...)`. -/
def mkN (v : Int) (d : List OP) : Res N :=
  if v < 0 then .err else .ok (N.mk v d)

/-- `ZERO()` of the source. -/
def ZERO : N := N.mk 0 []

/-- `ONE()` of the source. -/
def ONE : N := N.mk 1 []

/-- Signature bundle for the engine's mutually recursive procedures at a
fixed fuel level: `N.evaluate`, its internal drain loop, `N.op`,
`OP.execute`, and the four `while` loops of the derived operations.  The
source's mutual recursion is realised by one structural recursion on fuel
over this bundle; every nested call the source makes runs one fuel level
down. -/
structure Engine : Type where
  evaluate : Nat → N → Res N
  evalLoop : Nat → N → List OP → Res N
  op : Nat → N → OP → Res N
  execute : Nat → OP → N → Res N
  addLoop : Nat → N → N → Res (N × N)
  subLoop : Nat → N → N → Res (N × N)
  mulLoop : Nat → N → N → N → Res N
  divLoop : Nat → N → N → N → Res (N × N)

/-- Fuel exhausted: every procedure reports `Res.fuel`. -/
def divergedEngine : Engine where
  evaluate := fun _ _ => .fuel
  evalLoop := fun _ _ _ => .fuel
  op := fun _ _ _ => .fuel
  execute := fun _ _ _ => .fuel
  addLoop := fun _ _ _ => .fuel
  subLoop := fun _ _ _ => .fuel
  mulLoop := fun _ _ _ _ => .fuel
  divLoop := fun _ _ _ _ => .fuel

/-- One fuel level of the engine, translated clause by clause from
`src/main.ts`; `E` is the engine at the next-smaller fuel.  `depth` is the
static counter's value at entry of each procedure; `evaluate` checks the
incremented counter against the bound 10.  (The source's `if (!operation)`
fallback inside `op` is dead code: operation constructors always return an
object.) -/
def engineStep (E : Engine) : Engine where
  evaluate := fun depth n =>
    if depth + 1 > 10 then .ok n
    else
      Res.bind (mkN n.value []) fun current =>
        E.evalLoop (depth + 1) current n.deferred
  evalLoop := fun depth current ops =>
    match ops with
    | [] => .ok current
    | nextOp :: restOps =>
      Res.bind (E.execute depth nextOp current) fun c =>
        if c.deferred.length > 0 then
          mkN c.value (c.deferred ++ restOps)
        else
          E.evalLoop depth c restOps
  op := fun depth n o =>
    Res.bind (mkN n.value (n.deferred ++ [o])) fun m =>
      E.evaluate depth m
  execute := fun depth o n =>
    match o with
    | .INC => mkN (n.value + 1) n.deferred
    | .DEC =>
      if n.value = 0 then E.op depth n .DEC
      else mkN (n.value - 1) n.deferred
    | .ADD b =>
      Res.bind (E.addLoop depth n b) fun ab =>
        if ab.2.deferred.length > 0 then E.op depth ab.1 (.ADD ab.2)
        else .ok ab.1
    | .SUB b =>
      Res.bind (E.subLoop depth n b) fun ab =>
        if ab.2.deferred.length > 0 then E.op depth ab.1 (.ADD ab.2)
        else .ok ab.1
    | .MUL b => E.mulLoop depth n n b
    | .DIV b =>
      Res.bind (E.divLoop depth b ZERO n) fun qr =>
        if qr.2.value = 0 then .ok qr.1
        else
          Res.bind (E.op depth qr.2 (.DIV b)) fun x =>
            E.op depth qr.1 (.ADD x)
  addLoop := fun depth a b =>
    if b.value > 0 then
      Res.bind (E.op depth a .INC) fun a' =>
        Res.bind (E.op depth b .DEC) fun b' =>
          E.addLoop depth a' b'
    else .ok (a, b)
  subLoop := fun depth a b =>
    if b.value > 0 then
      Res.bind (E.op depth a .DEC) fun a' =>
        Res.bind (E.op depth b .DEC) fun b' =>
          E.subLoop depth a' b'
    else .ok (a, b)
  mulLoop := fun depth n a counter =>
    if counter.value > 1 then
      Res.bind (E.op depth a (.ADD n)) fun a' =>
        Res.bind (E.op depth counter .DEC) fun c' =>
          E.mulLoop depth n a' c'
    else .ok a
  divLoop := fun depth b quotient remainder =>
    if remainder.value ≥ b.value ∧ b.value > 0 then
      Res.bind (E.op depth remainder (.SUB b)) fun r' =>
        Res.bind (E.op depth quotient .INC) fun q' =>
          E.divLoop depth b q' r'
    else .ok (quotient, remainder)

/-- The engine with `fuel` levels of nested calls available. -/
def engine : Nat → Engine :=
  fun fuel => Nat.rec divergedEngine (fun _ E => engineStep E) fuel

/-- `N.evaluate` of the source (fuelled). -/
def N.evaluate (fuel : Nat) (depth : Nat) (n : N) : Res N :=
  (engine fuel).evaluate depth n

/-- The `while (true)` drain loop inside `N.evaluate` (fuelled). -/
def evalLoop (fuel : Nat) (depth : Nat) (current : N) (ops : List OP) : Res N :=
  (engine fuel).evalLoop depth current ops

/-- `N.op` of the source (fuelled). -/
def N.op (fuel : Nat) (depth : Nat) (n : N) (o : OP) : Res N :=
  (engine fuel).op depth n o

/-- `OP.execute` of the source (fuelled). -/
def execute (fuel : Nat) (depth : Nat) (o : OP) (n : N) : Res N :=
  (engine fuel).execute depth o n

/-- `ADD.execute`'s loop: `while (b.value > 0n) { a = a.op(INC); b = b.op(DEC); }`. -/
def addLoop (fuel : Nat) (depth : Nat) (a b : N) : Res (N × N) :=
  (engine fuel).addLoop depth a b

/-- `SUB.execute`'s loop: `while (b.value > 0n) { a = a.op(DEC); b = b.op(DEC); }`. -/
def subLoop (fuel : Nat) (depth : Nat) (a b : N) : Res (N × N) :=
  (engine fuel).subLoop depth a b

/-- `MUL.execute`'s loop: the receiver is remembered as `n`, and
`while (counter.value > 1n) { a = a.op(ADD, n); counter = counter.op(DEC); }`. -/
def mulLoop (fuel : Nat) (depth : Nat) (n a counter : N) : Res N :=
  (engine fuel).mulLoop depth n a counter

/-- `DIV.execute`'s loop:
`while (remainder.value >= b.value && b.value > 0n) { remainder = remainder.op(SUB, b); quotient = quotient.op(INC); }`. -/
def divLoop (fuel : Nat) (depth : Nat) (b quotient remainder : N) : Res (N × N) :=
  (engine fuel).divLoop depth b quotient remainder

/-- A top-level public `n.op(...)` call: the process-wide depth counter is
0 between top-level calls (it is restored on every return path). -/
def opTop (fuel : Nat) (n : N) (o : OP) : Res N :=
  N.op fuel 0 n o

/-- A top-level public `n.evaluate()` call. -/
def evalTop (fuel : Nat) (n : N) : Res N :=
  N.evaluate fuel 0 n

mutual

/-- `OP.toString`/`name` of the source: `"INC"`, `"DEC"`, `"ADD(<b>)"` etc.,
with the captured operand rendered recursively. -/
def OP.render : OP → String
  | .INC => "INC"
  | .DEC => "DEC"
  | .ADD b => "ADD(" ++ N.render b ++ ")"
  | .SUB b => "SUB(" ++ N.render b ++ ")"
  | .MUL b => "MUL(" ++ N.render b ++ ")"
  | .DIV b => "DIV(" ++ N.render b ++ ")"

/-- `N.toString` of the source: the magnitude alone when the queue is
empty, else the magnitude followed by the bracketed comma-joined queue. -/
def N.render : N → String
  | .mk v [] => toString v
  | .mk v (o :: rest) =>
    toString v ++ "[" ++ OP.render o ++ renderTail rest ++ "]"

/-- The tail of `deferred.join(", ")`. -/
def renderTail : List OP → String
  | [] => ""
  | o :: rest => ", " ++ OP.render o ++ renderTail rest

end

/-! ## Basic lemmas about the embedding -/

theorem Res.bind_eq_ok {α β : Type} {x : Res α} {k : α → Res β} {y : β} :
    Res.bind x k = .ok y ↔ ∃ a, x = .ok a ∧ k a = .ok y := by
  cases x <;> simp [Res.bind]

theorem mkN_nonneg {v : Int} (h : 0 ≤ v) (d : List OP) : mkN v d = .ok (N.mk v d) := by
  simp [mkN, not_lt.mpr h]

@[simp] theorem mkN_ne_fuel (v : Int) (d : List OP) : mkN v d ≠ .fuel := by
  by_cases h : v < 0 <;> simp [mkN, h]

theorem evaluate_succ (f d : Nat) (n : N) :
    N.evaluate (f + 1) d n =
      if d + 1 > 10 then .ok n
      else Res.bind (mkN n.value []) fun current => evalLoop f (d + 1) current n.deferred := rfl

theorem evalLoop_succ_nil (f d : Nat) (current : N) :
    evalLoop (f + 1) d current [] = .ok current := rfl

theorem evalLoop_succ_cons (f d : Nat) (current : N) (o : OP) (rest : List OP) :
    evalLoop (f + 1) d current (o :: rest) =
      Res.bind (execute f d o current) fun c =>
        if c.deferred.length > 0 then mkN c.value (c.deferred ++ rest)
        else evalLoop f d c rest := rfl

theorem op_succ (f d : Nat) (n : N) (o : OP) :
    N.op (f + 1) d n o =
      Res.bind (mkN n.value (n.deferred ++ [o])) fun m => N.evaluate f d m := rfl

theorem execute_succ_INC (f d : Nat) (n : N) :
    execute (f + 1) d .INC n = mkN (n.value + 1) n.deferred := rfl

theorem execute_succ_DEC (f d : Nat) (n : N) :
    execute (f + 1) d .DEC n =
      if n.value = 0 then N.op f d n .DEC else mkN (n.value - 1) n.deferred := rfl

theorem execute_succ_ADD (f d : Nat) (b n : N) :
    execute (f + 1) d (.ADD b) n =
      Res.bind (addLoop f d n b) fun ab =>
        if ab.2.deferred.length > 0 then N.op f d ab.1 (.ADD ab.2) else .ok ab.1 := rfl

theorem execute_succ_SUB (f d : Nat) (b n : N) :
    execute (f + 1) d (.SUB b) n =
      Res.bind (subLoop f d n b) fun ab =>
        if ab.2.deferred.length > 0 then N.op f d ab.1 (.ADD ab.2) else .ok ab.1 := rfl

theorem execute_succ_MUL (f d : Nat) (b n : N) :
    execute (f + 1) d (.MUL b) n = mulLoop f d n n b := rfl

theorem execute_succ_DIV (f d : Nat) (b n : N) :
    execute (f + 1) d (.DIV b) n =
      Res.bind (divLoop f d b ZERO n) fun qr =>
        if qr.2.value = 0 then .ok qr.1
        else
          Res.bind (N.op f d qr.2 (.DIV b)) fun x => N.op f d qr.1 (.ADD x) := rfl

theorem addLoop_succ (f d : Nat) (a b : N) :
    addLoop (f + 1) d a b =
      if b.value > 0 then
        Res.bind (N.op f d a .INC) fun a' =>
          Res.bind (N.op f d b .DEC) fun b' => addLoop f d a' b'
      else .ok (a, b) := rfl

theorem subLoop_succ (f d : Nat) (a b : N) :
    subLoop (f + 1) d a b =
      if b.value > 0 then
        Res.bind (N.op f d a .DEC) fun a' =>
          Res.bind (N.op f d b .DEC) fun b' => subLoop f d a' b'
      else .ok (a, b) := rfl

theorem mulLoop_succ (f d : Nat) (n a counter : N) :
    mulLoop (f + 1) d n a counter =
      if counter.value > 1 then
        Res.bind (N.op f d a (.ADD n)) fun a' =>
          Res.bind (N.op f d counter .DEC) fun c' => mulLoop f d n a' c'
      else .ok a := rfl

theorem divLoop_succ (f d : Nat) (b quotient remainder : N) :
    divLoop (f + 1) d b quotient remainder =
      if remainder.value ≥ b.value ∧ b.value > 0 then
        Res.bind (N.op f d remainder (.SUB b)) fun r' =>
          Res.bind (N.op f d quotient .INC) fun q' => divLoop f d b q' r'
      else .ok (quotient, remainder) := rfl

@[simp] theorem evaluate_zero (d : Nat) (n : N) : N.evaluate 0 d n = .fuel := rfl
@[simp] theorem evalLoop_zero (d : Nat) (c : N) (ops : List OP) : evalLoop 0 d c ops = .fuel := rfl
@[simp] theorem op_zero (d : Nat) (n : N) (o : OP) : N.op 0 d n o = .fuel := rfl
@[simp] theorem execute_zero (d : Nat) (o : OP) (n : N) : execute 0 d o n = .fuel := rfl
@[simp] theorem addLoop_zero (d : Nat) (a b : N) : addLoop 0 d a b = .fuel := rfl
@[simp] theorem subLoop_zero (d : Nat) (a b : N) : subLoop 0 d a b = .fuel := rfl
@[simp] theorem mulLoop_zero (d : Nat) (n a c : N) : mulLoop 0 d n a c = .fuel := rfl
@[simp] theorem divLoop_zero (d : Nat) (b q r : N) : divLoop 0 d b q r = .fuel := rfl

/-! ## Well-formedness: all magnitudes non-negative, recursively -/

mutual
/-- A Value is well-formed when its magnitude is non-negative and every
captured operand inside its queue is well-formed. -/
inductive NWF : N → Prop where
  | mk : ∀ (v : Int) (l : List OP), 0 ≤ v → (∀ o ∈ l, OPWF o) → NWF (N.mk v l)

/-- Well-formedness of an operation: its captured operand (if any) is a
well-formed Value. -/
inductive OPWF : OP → Prop where
  | inc : OPWF .INC
  | dec : OPWF .DEC
  | add : ∀ b, NWF b → OPWF (.ADD b)
  | sub : ∀ b, NWF b → OPWF (.SUB b)
  | mul : ∀ b, NWF b → OPWF (.MUL b)
  | div : ∀ b, NWF b → OPWF (.DIV b)
end

theorem NWF.value_nonneg {n : N} (h : NWF n) : 0 ≤ n.value := by
  cases h with
  | mk v l hv hl => exact hv

theorem NWF.deferred_wf {n : N} (h : NWF n) : ∀ o ∈ n.deferred, OPWF o := by
  cases h with
  | mk v l hv hl => exact hl

theorem NWF.of_parts {n : N} (hv : 0 ≤ n.value) (hl : ∀ o ∈ n.deferred, OPWF o) :
    NWF n := by
  cases n with
  | mk v l => exact NWF.mk v l hv hl

theorem NWF_num {v : Int} (h : 0 ≤ v) : NWF (N.mk v []) :=
  NWF.mk v [] h (by simp)

theorem NWF_ZERO : NWF ZERO := NWF_num (by norm_num)

theorem NWF_ONE : NWF ONE := NWF_num (by norm_num)

/-- The nested shape the engine actually produces for an unresolved
division remainder: `remChain r b 0 = r[DIV(b)]` and each further level
wraps it as `0[ADD(...)]` (one level per depth step burned by the
depth-bounded recursion through the remainder). -/
def remChain (r : Int) (b : N) : Nat → N
  | 0 => N.mk r [.DIV b]
  | k + 1 => N.mk 0 [.ADD (remChain r b k)]

/-! ## Fuel monotonicity: an `ok` result is stable under more fuel -/

theorem engine_mono :
    ∀ f g, f ≤ g →
      (∀ d n x, N.evaluate f d n = .ok x → N.evaluate g d n = .ok x) ∧
      (∀ d c ops x, evalLoop f d c ops = .ok x → evalLoop g d c ops = .ok x) ∧
      (∀ d n o x, N.op f d n o = .ok x → N.op g d n o = .ok x) ∧
      (∀ d o n x, execute f d o n = .ok x → execute g d o n = .ok x) ∧
      (∀ d a b x, addLoop f d a b = .ok x → addLoop g d a b = .ok x) ∧
      (∀ d a b x, subLoop f d a b = .ok x → subLoop g d a b = .ok x) ∧
      (∀ d n a c x, mulLoop f d n a c = .ok x → mulLoop g d n a c = .ok x) ∧
      (∀ d b q r x, divLoop f d b q r = .ok x → divLoop g d b q r = .ok x) := by
  intro f
  induction f with
  | zero =>
    intro g _
    refine ⟨?_, ?_, ?_, ?_, ?_, ?_, ?_, ?_⟩ <;> intros <;> simp_all
  | succ f ih =>
    intro g hg
    obtain ⟨g', rfl⟩ : ∃ g', g = g' + 1 := ⟨g - 1, by omega⟩
    obtain ⟨IHeval, IHloop, IHop, IHexec, IHadd, IHsub, IHmul, IHdiv⟩ :=
      ih g' (by omega)
    refine ⟨?_, ?_, ?_, ?_, ?_, ?_, ?_, ?_⟩
    · -- evaluate
      intro d n x h
      rw [evaluate_succ] at h ⊢
      by_cases hd : d + 1 > 10
      · simpa [hd] using h
      · simp only [hd, if_false] at h ⊢
        rcases Res.bind_eq_ok.mp h with ⟨cur, hcur, hrest⟩
        exact Res.bind_eq_ok.mpr ⟨cur, hcur, IHloop _ _ _ _ hrest⟩
    · -- evalLoop
      intro d c ops x h
      cases ops with
      | nil => rwa [evalLoop_succ_nil] at h ⊢
      | cons o rest =>
        rw [evalLoop_succ_cons] at h ⊢
        rcases Res.bind_eq_ok.mp h with ⟨c1, hc1, hrest⟩
        refine Res.bind_eq_ok.mpr ⟨c1, IHexec _ _ _ _ hc1, ?_⟩
        by_cases hl : c1.deferred.length > 0
        · simpa [hl] using hrest
        · simp only [hl, if_false] at hrest ⊢
          exact IHloop _ _ _ _ hrest
    · -- op
      intro d n o x h
      rw [op_succ] at h ⊢
      rcases Res.bind_eq_ok.mp h with ⟨m, hm, he⟩
      exact Res.bind_eq_ok.mpr ⟨m, hm, IHeval _ _ _ he⟩
    · -- execute
      intro d o n x h
      cases o with
      | INC => rwa [execute_succ_INC] at h ⊢
      | DEC =>
        rw [execute_succ_DEC] at h ⊢
        by_cases hv : n.value = 0
        · simp only [hv, if_true] at h ⊢
          exact IHop _ _ _ _ h
        · simpa [hv] using h
      | ADD b =>
        rw [execute_succ_ADD] at h ⊢
        rcases Res.bind_eq_ok.mp h with ⟨ab, hab, hrest⟩
        refine Res.bind_eq_ok.mpr ⟨ab, IHadd _ _ _ _ hab, ?_⟩
        by_cases hl : ab.2.deferred.length > 0
        · simp only [hl, if_true] at hrest ⊢
          exact IHop _ _ _ _ hrest
        · simpa [hl] using hrest
      | SUB b =>
        rw [execute_succ_SUB] at h ⊢
        rcases Res.bind_eq_ok.mp h with ⟨ab, hab, hrest⟩
        refine Res.bind_eq_ok.mpr ⟨ab, IHsub _ _ _ _ hab, ?_⟩
        by_cases hl : ab.2.deferred.length > 0
        · simp only [hl, if_true] at hrest ⊢
          exact IHop _ _ _ _ hrest
        · simpa [hl] using hrest
      | MUL b =>
        rw [execute_succ_MUL] at h ⊢
        exact IHmul _ _ _ _ _ h
      | DIV b =>
        rw [execute_succ_DIV] at h ⊢
        rcases Res.bind_eq_ok.mp h with ⟨qr, hqr, hrest⟩
        refine Res.bind_eq_ok.mpr ⟨qr, IHdiv _ _ _ _ _ hqr, ?_⟩
        by_cases hv : qr.2.value = 0
        · simpa [hv] using hrest
        · simp only [hv, if_false] at hrest ⊢
          rcases Res.bind_eq_ok.mp hrest with ⟨x1, hx1, hx2⟩
          exact Res.bind_eq_ok.mpr ⟨x1, IHop _ _ _ _ hx1, IHop _ _ _ _ hx2⟩
    · -- addLoop
      intro d a b x h
      rw [addLoop_succ] at h ⊢
      by_cases hb : b.value > 0
      · simp only [hb, if_true] at h ⊢
        rcases Res.bind_eq_ok.mp h with ⟨a1, ha1, h1⟩
        rcases Res.bind_eq_ok.mp h1 with ⟨b1, hb1, h2⟩
        exact Res.bind_eq_ok.mpr
          ⟨a1, IHop _ _ _ _ ha1,
            Res.bind_eq_ok.mpr ⟨b1, IHop _ _ _ _ hb1, IHadd _ _ _ _ h2⟩⟩
      · simpa [hb] using h
    · -- subLoop
      intro d a b x h
      rw [subLoop_succ] at h ⊢
      by_cases hb : b.value > 0
      · simp only [hb, if_true] at h ⊢
        rcases Res.bind_eq_ok.mp h with ⟨a1, ha1, h1⟩
        rcases Res.bind_eq_ok.mp h1 with ⟨b1, hb1, h2⟩
        exact Res.bind_eq_ok.mpr
          ⟨a1, IHop _ _ _ _ ha1,
            Res.bind_eq_ok.mpr ⟨b1, IHop _ _ _ _ hb1, IHsub _ _ _ _ h2⟩⟩
      · simpa [hb] using h
    · -- mulLoop
      intro d n a c x h
      rw [mulLoop_succ] at h ⊢
      by_cases hc : c.value > 1
      · simp only [hc, if_true] at h ⊢
        rcases Res.bind_eq_ok.mp h with ⟨a1, ha1, h1⟩
        rcases Res.bind_eq_ok.mp h1 with ⟨c1, hc1, h2⟩
        exact Res.bind_eq_ok.mpr
          ⟨a1, IHop _ _ _ _ ha1,
            Res.bind_eq_ok.mpr ⟨c1, IHop _ _ _ _ hc1, IHmul _ _ _ _ _ h2⟩⟩
      · simpa [hc] using h
    · -- divLoop
      intro d b q r x h
      rw [divLoop_succ] at h ⊢
      by_cases hc : r.value ≥ b.value ∧ b.value > 0
      · simp only [hc, if_true] at h ⊢
        rcases Res.bind_eq_ok.mp h with ⟨r1, hr1, h1⟩
        rcases Res.bind_eq_ok.mp h1 with ⟨q1, hq1, h2⟩
        exact Res.bind_eq_ok.mpr
          ⟨r1, IHop _ _ _ _ hr1,
            Res.bind_eq_ok.mpr ⟨q1, IHop _ _ _ _ hq1, IHdiv _ _ _ _ _ h2⟩⟩
      · simpa [hc] using h

theorem op_mono {f g : Nat} (hfg : f ≤ g) {d : Nat} {n : N} {o : OP} {x : N}
    (h : N.op f d n o = .ok x) : N.op g d n o = .ok x :=
  (engine_mono f g hfg).2.2.1 d n o x h

theorem evaluate_mono {f g : Nat} (hfg : f ≤ g) {d : Nat} {n : N} {x : N}
    (h : N.evaluate f d n = .ok x) : N.evaluate g d n = .ok x :=
  (engine_mono f g hfg).1 d n x h

theorem execute_mono {f g : Nat} (hfg : f ≤ g) {d : Nat} {o : OP} {n : N} {x : N}
    (h : execute f d o n = .ok x) : execute g d o n = .ok x :=
  (engine_mono f g hfg).2.2.2.1 d o n x h

theorem subLoop_mono {f g : Nat} (hfg : f ≤ g) {d : Nat} {a b : N} {x : N × N}
    (h : subLoop f d a b = .ok x) : subLoop g d a b = .ok x :=
  (engine_mono f g hfg).2.2.2.2.2.1 d a b x h

theorem divLoop_mono {f g : Nat} (hfg : f ≤ g) {d : Nat} {b q r : N} {x : N × N}
    (h : divLoop f d b q r = .ok x) : divLoop g d b q r = .ok x :=
  (engine_mono f g hfg).2.2.2.2.2.2.2 d b q r x h

theorem mulLoop_mono {f g : Nat} (hfg : f ≤ g) {d : Nat} {n a c : N} {x : N}
    (h : mulLoop f d n a c = .ok x) : mulLoop g d n a c = .ok x :=
  (engine_mono f g hfg).2.2.2.2.2.2.1 d n a c x h

theorem addLoop_mono {f g : Nat} (hfg : f ≤ g) {d : Nat} {a b : N} {x : N × N}
    (h : addLoop f d a b = .ok x) : addLoop g d a b = .ok x :=
  (engine_mono f g hfg).2.2.2.2.1 d a b x h

theorem evalLoop_mono {f g : Nat} (hfg : f ≤ g) {d : Nat} {c : N} {ops : List OP} {x : N}
    (h : evalLoop f d c ops = .ok x) : evalLoop g d c ops = .ok x :=
  (engine_mono f g hfg).2.1 d c ops x h

/-! ## The constructor's negative check is unreachable: well-formedness is
preserved and `Res.err` is never produced -/

/-- A good outcome for a Value-producing step: not an `InvariantViolation`,
and any normal result is well-formed. -/
def GoodN (r : Res N) : Prop := r ≠ .err ∧ ∀ m, r = .ok m → NWF m

/-- A good outcome for a pair-producing loop step. -/
def GoodP (r : Res (N × N)) : Prop := r ≠ .err ∧ ∀ p, r = .ok p → NWF p.1 ∧ NWF p.2

theorem GoodN_fuel : GoodN .fuel := by
  constructor
  · simp
  · intro m h
    simp at h

theorem GoodP_fuel : GoodP .fuel := by
  constructor
  · simp
  · intro m h
    simp at h

theorem GoodN_ok {m : N} (h : NWF m) : GoodN (.ok m) := by
  constructor
  · simp
  · intro m' hm'
    cases hm'
    exact h

theorem GoodP_ok {p : N × N} (h1 : NWF p.1) (h2 : NWF p.2) : GoodP (.ok p) := by
  constructor
  · simp
  · intro p' hp'
    cases hp'
    exact ⟨h1, h2⟩

theorem GoodN_mkN {v : Int} {l : List OP} (hv : 0 ≤ v) (hl : ∀ o ∈ l, OPWF o) :
    GoodN (mkN v l) := by
  rw [mkN_nonneg hv]
  exact GoodN_ok (NWF.mk v l hv hl)

theorem GoodN_bind {x : Res N} {k : N → Res N}
    (hx : GoodN x) (hk : ∀ a, x = .ok a → NWF a → GoodN (k a)) :
    GoodN (Res.bind x k) := by
  cases x with
  | ok a => exact hk a rfl (hx.2 a rfl)
  | err => exact absurd rfl hx.1
  | fuel => exact GoodN_fuel

theorem GoodN_bindP {x : Res (N × N)} {k : N × N → Res N}
    (hx : GoodP x) (hk : ∀ a, x = .ok a → NWF a.1 → NWF a.2 → GoodN (k a)) :
    GoodN (Res.bind x k) := by
  cases x with
  | ok a => exact hk a rfl (hx.2 a rfl).1 (hx.2 a rfl).2
  | err => exact absurd rfl hx.1
  | fuel => exact GoodN_fuel

theorem GoodP_bind {x : Res N} {k : N → Res (N × N)}
    (hx : GoodN x) (hk : ∀ a, x = .ok a → NWF a → GoodP (k a)) :
    GoodP (Res.bind x k) := by
  cases x with
  | ok a => exact hk a rfl (hx.2 a rfl)
  | err => exact absurd rfl hx.1
  | fuel => exact GoodP_fuel

theorem wf_engine :
    ∀ f,
      (∀ d n, NWF n → GoodN (N.evaluate f d n)) ∧
      (∀ d c ops, NWF c → (∀ o ∈ ops, OPWF o) → GoodN (evalLoop f d c ops)) ∧
      (∀ d n o, NWF n → OPWF o → GoodN (N.op f d n o)) ∧
      (∀ d o n, OPWF o → NWF n → GoodN (execute f d o n)) ∧
      (∀ d a b, NWF a → NWF b → GoodP (addLoop f d a b)) ∧
      (∀ d a b, NWF a → NWF b → GoodP (subLoop f d a b)) ∧
      (∀ d n a c, NWF n → NWF a → NWF c → GoodN (mulLoop f d n a c)) ∧
      (∀ d b q r, NWF b → NWF q → NWF r → GoodP (divLoop f d b q r)) := by
  intro f
  induction f with
  | zero =>
    refine ⟨?_, ?_, ?_, ?_, ?_, ?_, ?_, ?_⟩ <;> intros <;>
      first
        | exact GoodN_fuel
        | exact GoodP_fuel
  | succ f ih =>
    obtain ⟨IHeval, IHloop, IHop, IHexec, IHadd, IHsub, IHmul, IHdiv⟩ := ih
    refine ⟨?_, ?_, ?_, ?_, ?_, ?_, ?_, ?_⟩
    · -- evaluate
      intro d n hn
      rw [evaluate_succ]
      by_cases hd : d + 1 > 10
      · simpa [hd] using GoodN_ok hn
      · simp only [hd, if_false]
        refine GoodN_bind (GoodN_mkN hn.value_nonneg (by simp)) ?_
        intro cur _ hcur
        exact IHloop _ _ _ hcur hn.deferred_wf
    · -- evalLoop
      intro d c ops hc hops
      cases ops with
      | nil => simpa [evalLoop_succ_nil] using GoodN_ok hc
      | cons o rest =>
        rw [evalLoop_succ_cons]
        refine GoodN_bind (IHexec _ _ _ (hops o (by simp)) hc) ?_
        intro c1 _ hc1
        by_cases hl : c1.deferred.length > 0
        · simp only [hl, if_true]
          refine GoodN_mkN hc1.value_nonneg ?_
          intro o' ho'
          rcases List.mem_append.mp ho' with h | h
          · exact hc1.deferred_wf o' h
          · exact hops o' (by simp [h])
        · simp only [hl, if_false]
          exact IHloop _ _ _ hc1 fun o' ho' => hops o' (by simp [ho'])
    · -- op
      intro d n o hn ho
      rw [op_succ]
      refine GoodN_bind (GoodN_mkN hn.value_nonneg ?_) ?_
      · intro o' ho'
        rcases List.mem_append.mp ho' with h | h
        · exact hn.deferred_wf o' h
        · simp at h
          subst h
          exact ho
      · intro m _ hm
        exact IHeval _ _ hm
    · -- execute
      intro d o n ho hn
      cases ho with
      | inc =>
        rw [execute_succ_INC]
        exact GoodN_mkN (by have := hn.value_nonneg; omega) hn.deferred_wf
      | dec =>
        rw [execute_succ_DEC]
        by_cases hv : n.value = 0
        · simp only [hv, if_true]
          exact IHop _ _ _ hn OPWF.dec
        · simp only [hv, if_false]
          exact GoodN_mkN (by have := hn.value_nonneg; omega) hn.deferred_wf
      | add b hb =>
        rw [execute_succ_ADD]
        refine GoodN_bindP (IHadd _ _ _ hn hb) ?_
        intro ab _ h1 h2
        by_cases hl : ab.2.deferred.length > 0
        · simp only [hl, if_true]
          exact IHop _ _ _ h1 (OPWF.add _ h2)
        · simp only [hl, if_false]
          exact GoodN_ok h1
      | sub b hb =>
        rw [execute_succ_SUB]
        refine GoodN_bindP (IHsub _ _ _ hn hb) ?_
        intro ab _ h1 h2
        by_cases hl : ab.2.deferred.length > 0
        · simp only [hl, if_true]
          exact IHop _ _ _ h1 (OPWF.add _ h2)
        · simp only [hl, if_false]
          exact GoodN_ok h1
      | mul b hb =>
        rw [execute_succ_MUL]
        exact IHmul _ _ _ _ hn hn hb
      | div b hb =>
        rw [execute_succ_DIV]
        refine GoodN_bindP (IHdiv _ _ _ _ hb NWF_ZERO hn) ?_
        intro qr _ h1 h2
        by_cases hv : qr.2.value = 0
        · simp only [hv, if_true]
          exact GoodN_ok h1
        · simp only [hv, if_false]
          refine GoodN_bind (IHop _ _ _ h2 (OPWF.div _ hb)) ?_
          intro x _ hx
          exact IHop _ _ _ h1 (OPWF.add _ hx)
    · -- addLoop
      intro d a b ha hb
      rw [addLoop_succ]
      by_cases hbv : b.value > 0
      · simp only [hbv, if_true]
        refine GoodP_bind (IHop _ _ _ ha OPWF.inc) ?_
        intro a1 _ ha1
        refine GoodP_bind (IHop _ _ _ hb OPWF.dec) ?_
        intro b1 _ hb1
        exact IHadd _ _ _ ha1 hb1
      · simpa [hbv] using GoodP_ok ha hb
    · -- subLoop
      intro d a b ha hb
      rw [subLoop_succ]
      by_cases hbv : b.value > 0
      · simp only [hbv, if_true]
        refine GoodP_bind (IHop _ _ _ ha OPWF.dec) ?_
        intro a1 _ ha1
        refine GoodP_bind (IHop _ _ _ hb OPWF.dec) ?_
        intro b1 _ hb1
        exact IHsub _ _ _ ha1 hb1
      · simpa [hbv] using GoodP_ok ha hb
    · -- mulLoop
      intro d n a c hn ha hc
      rw [mulLoop_succ]
      by_cases hcv : c.value > 1
      · simp only [hcv, if_true]
        refine GoodN_bind (IHop _ _ _ ha (OPWF.add _ hn)) ?_
        intro a1 _ ha1
        refine GoodN_bind (IHop _ _ _ hc OPWF.dec) ?_
        intro c1 _ hc1
        exact IHmul _ _ _ _ hn ha1 hc1
      · simpa [hcv] using GoodN_ok ha
    · -- divLoop
      intro d b q r hb hq hr
      rw [divLoop_succ]
      by_cases hc : r.value ≥ b.value ∧ b.value > 0
      · simp only [hc, if_true]
        refine GoodP_bind (IHop _ _ _ hr (OPWF.sub _ hb)) ?_
        intro r1 _ hr1
        refine GoodP_bind (IHop _ _ _ hq OPWF.inc) ?_
        intro q1 _ hq1
        exact IHdiv _ _ _ _ hb hq1 hr1
      · simpa [hc] using GoodP_ok hq hr

/-! ## Depth-bound behaviour and small-step evaluation lemmas -/

/-- Deferred-decrement queues. -/
def DECs (k : Nat) : List OP := List.replicate k .DEC

theorem DECs_append_one (k : Nat) : DECs k ++ [.DEC] = DECs (k + 1) :=
  (List.replicate_succ' (n := k) (a := OP.DEC)).symm

/-- Once the depth counter would exceed 10, `evaluate` returns its receiver
unchanged without attempting anything. -/
theorem evaluate_bail {f d : Nat} {n : N} (hd : 10 ≤ d) (hf : 1 ≤ f) :
    N.evaluate f d n = .ok n := by
  obtain ⟨f', rfl⟩ : ∃ f', f = f' + 1 := ⟨f - 1, by omega⟩
  rw [evaluate_succ]
  simp [show d + 1 > 10 by omega]

/-- At exceeded depth, `op` returns the receiver with the new operation
appended to its queue, unapplied. -/
theorem op_bail {f d : Nat} {n : N} {o : OP} (hd : 10 ≤ d) (hf : 2 ≤ f)
    (hv : 0 ≤ n.value) :
    N.op f d n o = .ok (N.mk n.value (n.deferred ++ [o])) := by
  obtain ⟨f', rfl⟩ : ∃ f', f = f' + 1 := ⟨f - 1, by omega⟩
  rw [op_succ, mkN_nonneg hv]
  simp only [Res.bind_ok]
  exact evaluate_bail hd (by omega)

/-- Unfolding an `op` call into its `evaluate`. -/
theorem op_eq_evaluate {f d : Nat} {n : N} (o : OP) (hv : 0 ≤ n.value) :
    N.op (f + 1) d n o = N.evaluate f d (N.mk n.value (n.deferred ++ [o])) := by
  rw [op_succ, mkN_nonneg hv]
  simp

/-- Within the depth bound, `evaluate` drains the queue against a fresh
working value at the incremented depth. -/
theorem evaluate_eq_loop {f d : Nat} {n : N} (hd : d ≤ 9) (hv : 0 ≤ n.value) :
    N.evaluate (f + 1) d n = evalLoop f (d + 1) (N.mk n.value []) n.deferred := by
  rw [evaluate_succ]
  simp [show ¬(d + 1 > 10) by omega, mkN_nonneg hv]

/-- `op` on a Value with an empty queue reduces to a single `execute` of
the new operation (when within the depth bound and the result is again
non-negative). -/
theorem op_plain {f d : Nat} {v : Int} {o : OP} {c : N} (hd : d ≤ 9) (hv : 0 ≤ v)
    (hexec : execute f (d + 1) o (N.mk v []) = .ok c) (hc : 0 ≤ c.value) :
    N.op (f + 3) d (N.mk v []) o = .ok c := by
  obtain ⟨f', rfl⟩ : ∃ f', f = f' + 1 := by
    cases f with
    | zero => simp at hexec
    | succ f => exact ⟨f, rfl⟩
  rw [op_eq_evaluate o (by simpa using hv)]
  rw [show (N.mk v [] : N).value = v from rfl, show (N.mk v [] : N).deferred = [] from rfl]
  rw [evaluate_eq_loop hd (by simpa using hv)]
  simp only [List.nil_append, N.value_mk, N.deferred_mk]
  rw [evalLoop_succ_cons, hexec]
  simp only [Res.bind_ok]
  by_cases hl : c.deferred.length > 0
  · simp only [hl, if_true, List.append_nil]
    cases c with
    | mk cv cd => exact mkN_nonneg (by simpa using hc) cd
  · simp only [hl, if_false]
    rw [evalLoop_succ_nil]

theorem exec_INC {f d : Nat} {v : Int} (hv : 0 ≤ v) :
    execute (f + 1) d .INC (N.mk v []) = .ok (N.mk (v + 1) []) := by
  rw [execute_succ_INC]
  exact mkN_nonneg (by simpa using by omega) []

theorem exec_DEC_pos {f d : Nat} {v : Int} (hv : 0 < v) :
    execute (f + 1) d .DEC (N.mk v []) = .ok (N.mk (v - 1) []) := by
  rw [execute_succ_DEC]
  simp only [N.value_mk, N.deferred_mk]
  rw [if_neg (by omega)]
  exact mkN_nonneg (by omega) []

/-- `x.op(INC)` on a plain Value, within the depth bound. -/
theorem op_INC {f d : Nat} {v : Int} (hd : d ≤ 9) (hv : 0 ≤ v) (hf : 4 ≤ f) :
    N.op f d (N.mk v []) .INC = .ok (N.mk (v + 1) []) := by
  obtain ⟨f', rfl⟩ : ∃ f', f = f' + 1 + 3 := ⟨f - 4, by omega⟩
  exact op_plain hd hv (exec_INC hv) (by simp; omega)

/-- `x.op(DEC)` on a plain positive Value, within the depth bound. -/
theorem op_DEC_pos {f d : Nat} {v : Int} (hd : d ≤ 9) (hv : 0 < v) (hf : 4 ≤ f) :
    N.op f d (N.mk v []) .DEC = .ok (N.mk (v - 1) []) := by
  obtain ⟨f', rfl⟩ : ∃ f', f = f' + 1 + 3 := ⟨f - 4, by omega⟩
  exact op_plain hd hv.le (exec_DEC_pos hv) (by simp; omega)

/-- `x.op(DEC)` at magnitude zero: the decrement defers itself, at every
depth, whatever deferred decrements are already queued. -/
theorem op_DEC_zero :
    ∀ (d k : Nat), ∃ F, ∀ f, F ≤ f →
      N.op f d (N.mk 0 (DECs k)) .DEC = .ok (N.mk 0 (DECs (k + 1))) := by
  have main : ∀ (m d : Nat), 10 - d ≤ m → ∀ k, ∃ F, ∀ f, F ≤ f →
      N.op f d (N.mk 0 (DECs k)) .DEC = .ok (N.mk 0 (DECs (k + 1))) := by
    intro m
    induction m with
    | zero =>
      intro d hd k
      refine ⟨2, fun f hf => ?_⟩
      have : N.op f d (N.mk 0 (DECs k)) .DEC =
          .ok (N.mk 0 (DECs k ++ [.DEC])) := op_bail (by omega) hf (by simp)
      rwa [DECs_append_one] at this
    | succ m ih =>
      intro d hd k
      by_cases hd10 : 10 ≤ d
      · refine ⟨2, fun f hf => ?_⟩
        have : N.op f d (N.mk 0 (DECs k)) .DEC =
            .ok (N.mk 0 (DECs k ++ [.DEC])) := op_bail hd10 hf (by simp)
        rwa [DECs_append_one] at this
      · obtain ⟨F, hF⟩ := ih (d + 1) (by omega) 0
        refine ⟨F + 6, fun f hf => ?_⟩
        obtain ⟨f', rfl⟩ : ∃ f', f = f' + 4 := ⟨f - 4, by omega⟩
        have h1 : N.op (f' + 4) d (N.mk 0 (DECs k)) .DEC =
            N.evaluate (f' + 3) d (N.mk 0 (DECs (k + 1))) := by
          rw [op_eq_evaluate .DEC (by simp)]
          simp only [N.value_mk, N.deferred_mk, DECs_append_one]
        rw [h1, evaluate_eq_loop (by omega) (by simp)]
        simp only [N.value_mk, N.deferred_mk]
        rw [show DECs (k + 1) = .DEC :: DECs k by
          simp [DECs, List.replicate_succ]]
        rw [evalLoop_succ_cons]
        have hexec : execute (f' + 1) (d + 1) .DEC (N.mk 0 []) =
            .ok (N.mk 0 (DECs 1)) := by
          rw [execute_succ_DEC]
          simp only [N.value_mk, if_pos rfl]
          exact hF _ (by omega)
        rw [hexec]
        simp only [Res.bind_ok]
        rw [if_pos (by simp [DECs])]
        simp only [N.value_mk, N.deferred_mk]
        exact mkN_nonneg le_rfl _
  intro d k
  exact main 10 d (by omega) k

/-- The replay step of `ADD` with an exhausted but still indebted operand
(`b.value = 0`, pending work left): at every depth it reproduces
`a` with the single `ADD b` queued — the operand's debt is kept, not lost. -/
theorem add0_total :
    ∀ (d : Nat) (v : Int) (x : N), 0 ≤ v → x.value ≤ 0 → x.deferred ≠ [] →
      ∃ F, ∀ f, F ≤ f →
        N.op f d (N.mk v []) (.ADD x) = .ok (N.mk v [.ADD x]) := by
  have main : ∀ (m d : Nat), 10 - d ≤ m →
      ∀ (v : Int) (x : N), 0 ≤ v → x.value ≤ 0 → x.deferred ≠ [] →
      ∃ F, ∀ f, F ≤ f →
        N.op f d (N.mk v []) (.ADD x) = .ok (N.mk v [.ADD x]) := by
    intro m
    induction m with
    | zero =>
      intro d hd v x hv hx hxd
      refine ⟨2, fun f hf => ?_⟩
      have := op_bail (f := f) (d := d) (n := N.mk v []) (o := .ADD x)
        (by omega) hf (by simpa using hv)
      simpa using this
    | succ m ih =>
      intro d hd v x hv hx hxd
      by_cases hd10 : 10 ≤ d
      · refine ⟨2, fun f hf => ?_⟩
        have := op_bail (n := N.mk v []) (o := .ADD x) hd10 hf (by simpa using hv)
        simpa using this
      · obtain ⟨F, hF⟩ := ih (d + 1) (by omega) v x hv hx hxd
        refine ⟨F + 6, fun f hf => ?_⟩
        obtain ⟨f', rfl⟩ : ∃ f', f = f' + 6 := ⟨f - 6, by omega⟩
        rw [op_eq_evaluate _ (by simpa using hv)]
        simp only [N.value_mk, N.deferred_mk, List.nil_append]
        rw [evaluate_eq_loop (by omega) (by simpa using hv)]
        simp only [N.value_mk, N.deferred_mk]
        rw [evalLoop_succ_cons]
        have hexec : execute (f' + 3) (d + 1) (.ADD x) (N.mk v []) =
            .ok (N.mk v [.ADD x]) := by
          rw [execute_succ_ADD]
          have hloop : addLoop (f' + 2) (d + 1) (N.mk v []) x = .ok (N.mk v [], x) := by
            rw [addLoop_succ, if_neg (by omega)]
          rw [hloop]
          simp only [Res.bind_ok]
          rw [if_pos (by simpa using List.length_pos.mpr hxd)]
          exact hF _ (by omega)
        rw [hexec]
        simp only [Res.bind_ok]
        rw [if_pos (by simp)]
        simpa using mkN_nonneg (by simpa using hv) [OP.ADD x]
  intro d v x hv hx hxd
  exact main 10 d (by omega) v x hv hx hxd

/-- Safety version of the replay step: whatever the fuel, the replay either
reproduces `a` with the `ADD` queued or runs out of fuel — never anything
else. -/
theorem add0_safe :
    ∀ (f d : Nat) (v : Int) (x : N), 0 ≤ v → x.value ≤ 0 → x.deferred ≠ [] →
      N.op f d (N.mk v []) (.ADD x) = .ok (N.mk v [.ADD x]) ∨
      N.op f d (N.mk v []) (.ADD x) = .fuel := by
  intro f
  induction f using Nat.strong_induction_on with
  | _ f IH =>
    intro d v x hv hx hxd
    by_cases hd : 10 ≤ d
    · match f, rfl : f = f with
      | 0, _ => right; simp
      | 1, _ =>
        right
        rw [op_succ, mkN_nonneg (by simpa using hv)]
        simp
      | (f + 2), _ =>
        left
        have := op_bail (f := f + 2) (d := d) (n := N.mk v []) (o := .ADD x)
          hd (by omega) (by simpa using hv)
        simpa using this
    · push_neg at hd
      match f, rfl : f = f with
      | 0, _ => right; simp
      | 1, _ =>
        right
        rw [op_succ, mkN_nonneg (by simpa using hv)]
        simp
      | 2, _ =>
        right
        rw [op_eq_evaluate _ (by simpa using hv)]
        simp only [N.value_mk, N.deferred_mk, List.nil_append]
        rw [evaluate_eq_loop (by omega) (by simpa using hv)]
        simp
      | 3, _ =>
        right
        rw [op_eq_evaluate _ (by simpa using hv)]
        simp only [N.value_mk, N.deferred_mk, List.nil_append]
        rw [evaluate_eq_loop (by omega) (by simpa using hv)]
        simp only [N.value_mk, N.deferred_mk]
        rw [evalLoop_succ_cons]
        simp
      | 4, _ =>
        right
        rw [op_eq_evaluate _ (by simpa using hv)]
        simp only [N.value_mk, N.deferred_mk, List.nil_append]
        rw [evaluate_eq_loop (by omega) (by simpa using hv)]
        simp only [N.value_mk, N.deferred_mk]
        rw [evalLoop_succ_cons, execute_succ_ADD]
        simp
      | (f + 5), _ =>
        rw [op_eq_evaluate _ (by simpa using hv)]
        simp only [N.value_mk, N.deferred_mk, List.nil_append]
        rw [evaluate_eq_loop (by omega) (by simpa using hv)]
        simp only [N.value_mk, N.deferred_mk]
        rw [evalLoop_succ_cons, execute_succ_ADD]
        have hloop : addLoop (f + 1) (d + 1) (N.mk v []) x = .ok (N.mk v [], x) := by
          rw [addLoop_succ, if_neg (by omega)]
        rw [hloop]
        simp only [Res.bind_ok]
        rw [if_pos (by simpa using List.length_pos.mpr hxd)]
        rcases IH (f + 1) (by omega) (d + 1) v x hv hx hxd with hok | hfuel
        · left
          rw [hok]
          simp only [Res.bind_ok]
          rw [if_pos (by simp)]
          simpa using mkN_nonneg (by simpa using hv) [OP.ADD x]
        · right
          rw [hfuel]
          simp

/-- The `SUB` loop on plain operands: the counter `b` is consumed
completely; the receiver loses one per step while positive and defers the
remaining decrements once it reaches zero.  (`va - kb` and `kb - va` are
truncated natural subtractions.) -/
theorem subLoop_run :
    ∀ (kb d : Nat), d ≤ 9 → ∀ (va j : Nat), (j ≠ 0 → va = 0) →
      ∃ F, ∀ f, F ≤ f →
        subLoop f d (N.mk va (DECs j)) (N.mk kb []) =
          .ok (N.mk ((va - kb : Nat) : Int) (DECs (j + (kb - va))), N.mk 0 []) := by
  intro kb
  induction kb with
  | zero =>
    intro d hd va j hj
    refine ⟨1, fun f hf => ?_⟩
    obtain ⟨f', rfl⟩ : ∃ f', f = f' + 1 := ⟨f - 1, by omega⟩
    rw [subLoop_succ, if_neg (by simp)]
    simp
  | succ kb ih =>
    intro d hd va j hj
    rcases Nat.eq_zero_or_pos va with hva | hva
    · subst hva
      obtain ⟨F1, hF1⟩ := op_DEC_zero d j
      obtain ⟨F2, hF2⟩ := ih d hd 0 (j + 1) (fun _ => rfl)
      refine ⟨F1 + F2 + 10, fun f hf => ?_⟩
      obtain ⟨f', rfl⟩ : ∃ f', f = f' + 1 := ⟨f - 1, by omega⟩
      rw [subLoop_succ, if_pos (by simp only [N.value_mk]; push_cast; omega)]
      simp only [Nat.cast_zero]
      rw [hF1 f' (by omega)]
      simp only [Res.bind_ok]
      rw [op_DEC_pos (v := ((kb + 1 : Nat) : Int)) hd (by push_cast; omega) (by omega)]
      simp only [Res.bind_ok]
      have hcast : ((kb + 1 : Nat) : Int) - 1 = ((kb : Nat) : Int) := by push_cast; omega
      rw [hcast]
      have := hF2 f' (by omega)
      simp only [Nat.cast_zero] at this
      rw [this]
      have h1 : ((0 - (kb + 1) : Nat) : Int) = ((0 - kb : Nat) : Int) := by
        omega
      have h2 : j + (kb + 1 - 0) = j + 1 + (kb - 0) := by omega
      rw [h1, h2]
    · have hj0 : j = 0 := by
        by_contra hne
        exact absurd (hj hne) (by omega)
      subst hj0
      obtain ⟨w, rfl⟩ : ∃ w, va = w + 1 := ⟨va - 1, by omega⟩
      obtain ⟨F2, hF2⟩ := ih d hd w 0 (fun h => absurd rfl h)
      refine ⟨F2 + 10, fun f hf => ?_⟩
      obtain ⟨f', rfl⟩ : ∃ f', f = f' + 1 := ⟨f - 1, by omega⟩
      rw [subLoop_succ, if_pos (by simp only [N.value_mk]; push_cast; omega)]
      have ha : N.op f' d (N.mk ((w + 1 : Nat) : Int) (DECs 0)) .DEC =
          .ok (N.mk ((w : Nat) : Int) []) := by
        have h0 : DECs 0 = ([] : List OP) := rfl
        rw [h0]
        have := op_DEC_pos (f := f') (d := d) (v := ((w + 1 : Nat) : Int)) hd
          (by push_cast; omega) (by omega)
        rw [this]
        have hcast : ((w + 1 : Nat) : Int) - 1 = ((w : Nat) : Int) := by push_cast; omega
        rw [hcast]
      rw [ha]
      simp only [Res.bind_ok]
      rw [op_DEC_pos (v := ((kb + 1 : Nat) : Int)) hd (by push_cast; omega) (by omega)]
      simp only [Res.bind_ok]
      have hcast : ((kb + 1 : Nat) : Int) - 1 = ((kb : Nat) : Int) := by push_cast; omega
      rw [hcast]
      have hw : N.mk ((w : Nat) : Int) [] = N.mk ((w : Nat) : Int) (DECs 0) := rfl
      rw [hw, hF2 f' (by omega)]
      have h1 : ((w - kb : Nat) : Int) = ((w + 1 - (kb + 1) : Nat) : Int) := by
        omega
      have h2 : 0 + (kb - w) = 0 + (kb + 1 - (w + 1)) := by omega
      rw [h1, h2]

/-- `a.op(SUB, b)` on plain operands: quotient of the loop above, folded
through `op`/`evaluate`.  For `kb ≤ va` this is exact subtraction; past
zero it yields magnitude 0 with the missing decrements deferred. -/
theorem op_SUB_run :
    ∀ (d : Nat), d ≤ 8 → ∀ (va kb : Nat),
      ∃ F, ∀ f, F ≤ f →
        N.op f d (N.mk va []) (.SUB (N.mk kb [])) =
          .ok (N.mk ((va - kb : Nat) : Int) (DECs (kb - va))) := by
  intro d hd va kb
  obtain ⟨F, hF⟩ := subLoop_run kb (d + 1) (by omega) va 0 (fun h => absurd rfl h)
  refine ⟨F + 10, fun f hf => ?_⟩
  obtain ⟨f', rfl⟩ : ∃ f', f = f' + 4 := ⟨f - 4, by omega⟩
  rw [op_eq_evaluate _ (by simp)]
  simp only [N.value_mk, N.deferred_mk, List.nil_append]
  rw [evaluate_eq_loop (by omega) (by simp)]
  simp only [N.value_mk, N.deferred_mk]
  rw [evalLoop_succ_cons]
  have hsub := hF f' (by omega)
  have h0 : (N.mk (va : Int) (DECs 0)) = (N.mk (va : Int) []) := rfl
  rw [h0] at hsub
  have hexec : execute (f' + 1) (d + 1) (.SUB (N.mk kb [])) (N.mk va []) =
      .ok (N.mk ((va - kb : Nat) : Int) (DECs (kb - va))) := by
    rw [execute_succ_SUB, hsub]
    simp only [Res.bind_ok]
    rw [if_neg (by simp)]
    simp only [Nat.zero_add]
  rw [hexec]
  simp only [Res.bind_ok]
  by_cases hlen : (N.mk ((va - kb : Nat) : Int) (DECs (kb - va)) : N).deferred.length > 0
  · rw [if_pos hlen]
    simp only [N.value_mk, N.deferred_mk, List.append_nil]
    exact mkN_nonneg (by positivity) _
  · rw [if_neg hlen]
    rw [evalLoop_succ_nil]

/-- The `DIV` loop on plain operands with a positive divisor computes
truncated quotient and remainder by repeated subtraction. -/
theorem divLoop_run :
    ∀ (va d : Nat), d ≤ 8 → ∀ (q kb : Nat), 1 ≤ kb →
      ∃ F, ∀ f, F ≤ f →
        divLoop f d (N.mk kb []) (N.mk q []) (N.mk va []) =
          .ok (N.mk ((q + va / kb : Nat) : Int) [], N.mk ((va % kb : Nat) : Int) []) := by
  intro va
  induction va using Nat.strong_induction_on with
  | _ va IH =>
    intro d hd q kb hkb
    by_cases hge : kb ≤ va
    · obtain ⟨F1, hF1⟩ := op_SUB_run d hd va kb
      obtain ⟨F2, hF2⟩ := IH (va - kb) (by omega) d hd (q + 1) kb hkb
      refine ⟨F1 + F2 + 10, fun f hf => ?_⟩
      obtain ⟨f', rfl⟩ : ∃ f', f = f' + 1 := ⟨f - 1, by omega⟩
      rw [divLoop_succ, if_pos (by simp only [N.value_mk]; omega)]
      have hsub := hF1 f' (by omega)
      rw [show DECs (kb - va) = ([] : List OP) by
        simp [DECs, Nat.sub_eq_zero_of_le hge]] at hsub
      rw [hsub]
      simp only [Res.bind_ok]
      rw [op_INC (v := (q : Int)) (by omega) (by positivity) (by omega)]
      simp only [Res.bind_ok]
      have hq : (N.mk ((q : Int) + 1) [] : N) = N.mk ((q + 1 : Nat) : Int) [] := by
        rw [N.ext_iff]
        constructor
        · simp only [N.value_mk]
          push_cast
          omega
        · rfl
      rw [hq, hF2 f' (by omega)]
      have hdiv : q + va / kb = q + 1 + (va - kb) / kb := by
        rw [Nat.div_eq_sub_div (by omega) hge]
        omega
      have hmod : va % kb = (va - kb) % kb := Nat.mod_eq_sub_mod hge
      rw [← hdiv, ← hmod]
    · refine ⟨1, fun f hf => ?_⟩
      obtain ⟨f', rfl⟩ : ∃ f', f = f' + 1 := ⟨f - 1, by omega⟩
      rw [divLoop_succ, if_neg (by simp only [N.value_mk]; omega)]
      rw [Nat.div_eq_of_lt (by omega), Nat.mod_eq_of_lt (by omega)]
      simp

@[simp] theorem remChain_zero (r : Int) (b : N) : remChain r b 0 = N.mk r [.DIV b] := rfl

@[simp] theorem remChain_succ (r : Int) (b : N) (k : Nat) :
    remChain r b (k + 1) = N.mk 0 [.ADD (remChain r b k)] := rfl

/-- Wrapping a produced remainder chain under the quotient: within depth
this is the `ADD` replay cascade, beyond it the depth-bound bail; both
yield the quotient with the single `ADD` queued. -/
theorem add_wrap {d : Nat} {v : Int} {x : N} (hv : 0 ≤ v)
    (h : 10 ≤ d ∨ (x.value ≤ 0 ∧ x.deferred ≠ [])) :
    ∃ F, ∀ f, F ≤ f → N.op f d (N.mk v []) (.ADD x) = .ok (N.mk v [.ADD x]) := by
  rcases h with hd | ⟨hx, hxd⟩
  · refine ⟨2, fun f hf => ?_⟩
    have := op_bail (f := f) (d := d) (n := N.mk v []) (o := .ADD x) hd hf
      (by simpa using hv)
    simpa using this
  · exact add0_total d v x hv hx hxd

/-- The unresolved-remainder cascade: dividing a positive remainder that
the loop cannot reduce (`r < b`, or a non-positive divisor) produces the
`remChain` nest, one level per available depth step. -/
theorem rd_cascade :
    ∀ (m e : Nat), 10 - e ≤ m → ∀ (r : Int) (b : N),
      0 < r → ¬(r ≥ b.value ∧ b.value > 0) →
      ∃ F, ∀ f, F ≤ f →
        N.op f e (N.mk r []) (.DIV b) = .ok (remChain r b (10 - e)) := by
  intro m
  induction m with
  | zero =>
    intro e he r b hr hskip
    refine ⟨2, fun f hf => ?_⟩
    have := op_bail (f := f) (d := e) (n := N.mk r []) (o := .DIV b) (by omega) hf
      (by simpa using hr.le)
    rw [show 10 - e = 0 by omega, remChain_zero]
    simpa using this
  | succ m ih =>
    intro e he r b hr hskip
    by_cases he10 : 10 ≤ e
    · refine ⟨2, fun f hf => ?_⟩
      have := op_bail (f := f) (d := e) (n := N.mk r []) (o := .DIV b) he10 hf
        (by simpa using hr.le)
      rw [show 10 - e = 0 by omega, remChain_zero]
      simpa using this
    · obtain ⟨F1, hF1⟩ := ih (e + 1) (by omega) r b hr hskip
      have hwrap : 10 ≤ e + 1 ∨
          ((remChain r b (10 - (e + 1))).value ≤ 0 ∧
            (remChain r b (10 - (e + 1))).deferred ≠ []) := by
        by_cases he9 : e = 9
        · left
          omega
        · right
          rw [show 10 - (e + 1) = (9 - (e + 1)) + 1 by omega, remChain_succ]
          simp
      obtain ⟨F2, hF2⟩ := add_wrap (d := e + 1) (v := 0)
        (x := remChain r b (10 - (e + 1))) le_rfl hwrap
      refine ⟨F1 + F2 + 10, fun f hf => ?_⟩
      obtain ⟨f', rfl⟩ : ∃ f', f = f' + 4 := ⟨f - 4, by omega⟩
      rw [op_eq_evaluate _ (by simpa using hr.le)]
      simp only [N.value_mk, N.deferred_mk, List.nil_append]
      rw [evaluate_eq_loop (by omega) (by simpa using hr.le)]
      simp only [N.value_mk, N.deferred_mk]
      rw [evalLoop_succ_cons]
      have hexec : execute (f' + 1) (e + 1) (.DIV b) (N.mk r []) =
          .ok (N.mk 0 [.ADD (remChain r b (10 - (e + 1)))]) := by
        obtain ⟨f'', rfl⟩ : ∃ f'', f' = f'' + 1 := ⟨f' - 1, by omega⟩
        rw [execute_succ_DIV]
        have hloop : divLoop (f'' + 1) (e + 1) b ZERO (N.mk r []) =
            .ok (ZERO, N.mk r []) := by
          rw [divLoop_succ, if_neg (by simpa using hskip)]
        rw [hloop]
        simp only [Res.bind_ok]
        rw [if_neg (by simp only [N.value_mk]; omega)]
        rw [hF1 (f'' + 1) (by omega)]
        simp only [Res.bind_ok]
        have := hF2 (f'' + 1) (by omega)
        simpa [ZERO] using this
      rw [hexec]
      simp only [Res.bind_ok]
      rw [if_pos (by simp)]
      simp only [N.value_mk, N.deferred_mk, List.append_nil]
      rw [show 10 - e = (10 - (e + 1)) + 1 by omega, remChain_succ]
      exact mkN_nonneg le_rfl _

/-- Full behaviour of a public `a.op(DIV, b)` with plain operands and a
positive divisor: exact quotient when the remainder is zero, otherwise the
quotient with the remainder chain deferred under a single `ADD`. -/
theorem op_DIV_run (a b : Nat) (hb : 1 ≤ b) :
    ∃ F, ∀ f, F ≤ f →
      N.op f 0 (N.mk a []) (.DIV (N.mk b [])) =
        .ok (if (a % b : Nat) = 0 then N.mk ((a / b : Nat) : Int) []
          else N.mk ((a / b : Nat) : Int)
            [.ADD (remChain ((a % b : Nat) : Int) (N.mk b []) 9)]) := by
  obtain ⟨F1, hF1⟩ := divLoop_run a 1 (by omega) 0 b hb
  by_cases hm : (a % b : Nat) = 0
  · refine ⟨F1 + 10, fun f hf => ?_⟩
    obtain ⟨f', rfl⟩ : ∃ f', f = f' + 4 := ⟨f - 4, by omega⟩
    rw [op_eq_evaluate _ (by simp)]
    simp only [N.value_mk, N.deferred_mk, List.nil_append]
    rw [evaluate_eq_loop (by omega) (by simp)]
    simp only [N.value_mk, N.deferred_mk]
    rw [evalLoop_succ_cons]
    have hexec : execute (f' + 1) 1 (.DIV (N.mk b [])) (N.mk a []) =
        .ok (N.mk ((0 + a / b : Nat) : Int) []) := by
      obtain ⟨f'', rfl⟩ : ∃ f'', f' = f'' + 1 := ⟨f' - 1, by omega⟩
      rw [execute_succ_DIV]
      have := hF1 (f'' + 1) (by omega)
      rw [show (ZERO : N) = N.mk (0 : Nat) [] from rfl, this]
      simp only [Res.bind_ok]
      rw [if_pos (by simp [hm])]
    rw [hexec]
    simp only [Res.bind_ok]
    rw [if_neg (by simp)]
    rw [evalLoop_succ_nil, if_pos hm]
    simp
  · have hmod_lt : a % b < b := Nat.mod_lt _ (by omega)
    obtain ⟨F2, hF2⟩ := rd_cascade 10 1 (by omega) ((a % b : Nat) : Int) (N.mk b [])
      (by omega) (by simp only [N.value_mk]; push_cast; omega)
    obtain ⟨F3, hF3⟩ := add_wrap (d := 1) (v := ((a / b : Nat) : Int))
      (x := remChain ((a % b : Nat) : Int) (N.mk b []) 9) (by positivity)
      (.inr ⟨by simp, by simp⟩)
    refine ⟨F1 + F2 + F3 + 10, fun f hf => ?_⟩
    obtain ⟨f', rfl⟩ : ∃ f', f = f' + 4 := ⟨f - 4, by omega⟩
    rw [op_eq_evaluate _ (by simp)]
    simp only [N.value_mk, N.deferred_mk, List.nil_append]
    rw [evaluate_eq_loop (by omega) (by simp)]
    simp only [N.value_mk, N.deferred_mk]
    rw [evalLoop_succ_cons]
    have hexec : execute (f' + 1) 1 (.DIV (N.mk b [])) (N.mk a []) =
        .ok (N.mk ((a / b : Nat) : Int)
          [.ADD (remChain ((a % b : Nat) : Int) (N.mk b []) 9)]) := by
      obtain ⟨f'', rfl⟩ : ∃ f'', f' = f'' + 1 := ⟨f' - 1, by omega⟩
      rw [execute_succ_DIV]
      have := hF1 (f'' + 1) (by omega)
      rw [show (ZERO : N) = N.mk (0 : Nat) [] from rfl, this]
      simp only [Res.bind_ok]
      rw [if_neg (by simp only [N.value_mk]; push_cast; omega)]
      have h2 := hF2 (f'' + 1) (by omega)
      rw [show 10 - 1 = 9 by omega] at h2
      rw [h2]
      simp only [Res.bind_ok]
      have h3 := hF3 (f'' + 1) (by omega)
      simp only [Nat.cast_zero, Nat.zero_add] at *
      exact h3
    rw [hexec]
    simp only [Res.bind_ok]
    rw [if_pos (by simp)]
    simp only [N.value_mk, N.deferred_mk, List.append_nil]
    rw [if_neg hm]
    exact mkN_nonneg (by positivity) _

/-- Full behaviour of a public `a.op(DIV, b)` with a plain receiver and a
zero-magnitude divisor (any pending work on the divisor): zero over zero is exact,
otherwise the whole receiver becomes the eternally deferred remainder. -/
theorem op_DIV_zero (a : Nat) (b : N) (hb : b.value = 0) :
    ∃ F, ∀ f, F ≤ f →
      N.op f 0 (N.mk a []) (.DIV b) =
        .ok (if a = 0 then N.mk 0 []
          else N.mk 0 [.ADD (remChain (a : Int) b 9)]) := by
  by_cases ha : a = 0
  · subst ha
    refine ⟨10, fun f hf => ?_⟩
    obtain ⟨f', rfl⟩ : ∃ f', f = f' + 4 := ⟨f - 4, by omega⟩
    rw [op_eq_evaluate _ (by simp)]
    simp only [N.value_mk, N.deferred_mk, List.nil_append]
    rw [evaluate_eq_loop (by omega) (by simp)]
    simp only [N.value_mk, N.deferred_mk]
    rw [evalLoop_succ_cons]
    have hexec : execute (f' + 1) 1 (.DIV b) (N.mk (0 : Nat) []) = .ok ZERO := by
      obtain ⟨f'', rfl⟩ : ∃ f'', f' = f'' + 1 := ⟨f' - 1, by omega⟩
      rw [execute_succ_DIV]
      have hloop : divLoop (f'' + 1) 1 b ZERO (N.mk (0 : Nat) []) =
          .ok (ZERO, N.mk (0 : Nat) []) := by
        rw [divLoop_succ, if_neg (by simp only [N.value_mk]; omega)]
      rw [hloop]
      simp only [Res.bind_ok]
      rw [if_pos (by simp)]
    rw [hexec]
    simp only [Res.bind_ok]
    rw [if_neg (by simp [ZERO])]
    rw [evalLoop_succ_nil]
    simp [ZERO]
  · obtain ⟨F2, hF2⟩ := rd_cascade 10 1 (by omega) (a : Int) b
      (by omega) (by omega)
    obtain ⟨F3, hF3⟩ := add_wrap (d := 1) (v := (0 : Int))
      (x := remChain (a : Int) b 9) le_rfl (.inr ⟨by simp, by simp⟩)
    refine ⟨F2 + F3 + 10, fun f hf => ?_⟩
    obtain ⟨f', rfl⟩ : ∃ f', f = f' + 4 := ⟨f - 4, by omega⟩
    rw [op_eq_evaluate _ (by simp)]
    simp only [N.value_mk, N.deferred_mk, List.nil_append]
    rw [evaluate_eq_loop (by omega) (by simp)]
    simp only [N.value_mk, N.deferred_mk]
    rw [evalLoop_succ_cons]
    have hexec : execute (f' + 1) 1 (.DIV b) (N.mk a []) =
        .ok (N.mk 0 [.ADD (remChain (a : Int) b 9)]) := by
      obtain ⟨f'', rfl⟩ : ∃ f'', f' = f'' + 1 := ⟨f' - 1, by omega⟩
      rw [execute_succ_DIV]
      have hloop : divLoop (f'' + 1) 1 b ZERO (N.mk a []) =
          .ok (ZERO, N.mk a []) := by
        rw [divLoop_succ, if_neg (by simp only [N.value_mk]; omega)]
      rw [hloop]
      simp only [Res.bind_ok]
      rw [if_neg (by simp only [N.value_mk]; omega)]
      have h2 := hF2 (f'' + 1) (by omega)
      rw [show 10 - 1 = 9 by omega] at h2
      rw [h2]
      simp only [Res.bind_ok]
      have h3 := hF3 (f'' + 1) (by omega)
      simpa [ZERO] using h3
    rw [hexec]
    simp only [Res.bind_ok]
    rw [if_pos (by simp)]
    simp only [N.value_mk, N.deferred_mk, List.append_nil]
    rw [if_neg ha]
    exact mkN_nonneg le_rfl _

/-- Modelled from the spec: the reference oracle of unbounded repeated
subtraction used by the division invariant ("the single pending
operation's captured remainder, when fully resolved by an oracle of
unbounded repeated subtraction, equals `a - result.magnitude * b`").  A
plain Value resolves to its magnitude; a deferred `ADD` is resolved by
folding in the operand with unboundedly many increment/decrement steps; a
deferred division whose subtraction loop cannot run (remainder below the
divisor, or divisor not positive) leaves its carrier magnitude as the
remainder.  The oracle is not part of `src/`; it is the spec's reference
function. -/
inductive Resolves : N → Int → Prop where
  | plain : ∀ (v : Int), Resolves (N.mk v []) v
  | add : ∀ (v w : Int) (x : N), Resolves x w → Resolves (N.mk v [.ADD x]) (v + w)
  | stuckDiv : ∀ (v : Int) (b : N), ¬(v ≥ b.value ∧ b.value > 0) →
      Resolves (N.mk v [.DIV b]) v

theorem resolves_remChain (k : Nat) (r : Int) (b : N)
    (hskip : ¬(r ≥ b.value ∧ b.value > 0)) : Resolves (remChain r b k) r := by
  induction k with
  | zero => exact Resolves.stuckDiv r b hskip
  | succ k ihk =>
    rw [remChain_succ]
    have := Resolves.add 0 r (remChain r b k) ihk
    simpa using this

/-- C1: division invariant.  For non-negative `a` and positive `b` with
plain operands, `value_from(a).op(DIV, value_from(b))` terminates; when the
result's pending queue is empty, `result.magnitude * b = a` (exact
division); when it is non-empty, `result.magnitude * b ≤ a`, the queue is a
single pending `ADD`, and that operation's captured remainder Value,
resolved by the spec's oracle of unbounded repeated subtraction, equals
`a - result.magnitude * b`. -/
theorem c1_div_invariant (a b : Nat) (hb : 0 < b) :
    ∃ F res, (∀ f, F ≤ f → N.op f 0 (N.mk a []) (.DIV (N.mk b [])) = .ok res) ∧
      (res.deferred = [] → res.value * b = a) ∧
      (res.deferred ≠ [] →
        res.value * b ≤ a ∧
        ∃ x, res.deferred = [OP.ADD x] ∧ Resolves x ((a : Int) - res.value * b)) := by
  obtain ⟨F, hF⟩ := op_DIV_run a b hb
  by_cases hm : (a % b : Nat) = 0
  · refine ⟨F, N.mk ((a / b : Nat) : Int) [], ?_, ?_, ?_⟩
    · intro f hf
      have := hF f hf
      rwa [if_pos hm] at this
    · intro _
      simp only [N.value_mk]
      have hdvd : b ∣ a := Nat.dvd_of_mod_eq_zero hm
      have heq : a / b * b = a := Nat.div_mul_cancel hdvd
      exact_mod_cast heq
    · intro h
      exact absurd rfl h
  · refine ⟨F, N.mk ((a / b : Nat) : Int)
      [.ADD (remChain ((a % b : Nat) : Int) (N.mk b []) 9)], ?_, ?_, ?_⟩
    · intro f hf
      have := hF f hf
      rwa [if_neg hm] at this
    · intro h
      simp only [N.deferred_mk] at h
      exact absurd h (by simp)
    · intro _
      have hdm : a / b * b + a % b = a := by
        rw [Nat.mul_comm]
        exact Nat.div_add_mod a b
      have hdm' : ((a / b : Nat) : Int) * ((b : Nat) : Int) +
          ((a % b : Nat) : Int) = ((a : Nat) : Int) := by
        exact_mod_cast hdm
      constructor
      · simp only [N.value_mk]
        have hle : a / b * b ≤ a := Nat.div_mul_le_self a b
        exact_mod_cast hle
      · refine ⟨remChain ((a % b : Nat) : Int) (N.mk b []) 9, by simp, ?_⟩
        have hmod_lt : a % b < b := Nat.mod_lt _ (by omega)
        have hres := resolves_remChain 9 ((a % b : Nat) : Int) (N.mk b [])
          (by simp only [N.value_mk]; push_cast; omega)
        have heq : (a : Int) - (N.mk ((a / b : Nat) : Int)
            [.ADD (remChain ((a % b : Nat) : Int) (N.mk b []) 9)]).value * b =
            ((a % b : Nat) : Int) := by
          simp only [N.value_mk]
          linarith [hdm']
        rwa [heq]

/-- Witness for C1 at `a = 5`, `b = 3`. -/
theorem c1_div_invariant_witness :
    ∃ F res, (∀ f, F ≤ f → N.op f 0 (N.mk (5 : Nat) []) (.DIV (N.mk (3 : Nat) [])) = .ok res) ∧
      (res.deferred = [] → res.value * (3 : Nat) = (5 : Nat)) ∧
      (res.deferred ≠ [] →
        res.value * (3 : Nat) ≤ (5 : Nat) ∧
        ∃ x, res.deferred = [OP.ADD x] ∧
          Resolves x (((5 : Nat) : Int) - res.value * (3 : Nat))) :=
  c1_div_invariant 5 3 (by norm_num)

/-! ## Multiplication lemmas -/

/-- `MUL.execute` when the counter's magnitude does not exceed 1: the loop
body never runs and the receiver is returned untouched. -/
theorem exec_MUL_le_one {f d : Nat} {v : Int} {b : N} (hb : b.value ≤ 1) :
    execute (f + 2) d (.MUL b) (N.mk v []) = .ok (N.mk v []) := by
  rw [show f + 2 = (f + 1) + 1 by omega, execute_succ_MUL, mulLoop_succ,
    if_neg (by omega)]

/-- `a.op(MUL, b)` on a plain receiver with a counter of magnitude at most
1 returns the receiver unchanged: no `ADD` is ever performed. -/
theorem op_MUL_le_one {f d : Nat} {v : Int} {b : N} (hd : d ≤ 9) (hv : 0 ≤ v)
    (hb : b.value ≤ 1) (hf : 5 ≤ f) :
    N.op f d (N.mk v []) (.MUL b) = .ok (N.mk v []) := by
  obtain ⟨f', rfl⟩ : ∃ f', f = (f' + 2) + 3 := ⟨f - 5, by omega⟩
  exact op_plain hd hv (exec_MUL_le_one hb) hv

/-- `x.op(ADD, y)` with plain operands and `y = 0`: the loop never runs and
nothing is deferred. -/
theorem op_ADD_zero {f d : Nat} {v : Int} (hd : d ≤ 9) (hv : 0 ≤ v) (hf : 6 ≤ f) :
    N.op f d (N.mk v []) (.ADD (N.mk 0 [])) = .ok (N.mk v []) := by
  obtain ⟨f', rfl⟩ : ∃ f', f = f' + 3 + 3 := ⟨f - 6, by omega⟩
  refine op_plain hd hv ?_ hv
  rw [execute_succ_ADD]
  have hloop : addLoop (f' + 2) (d + 1) (N.mk v []) (N.mk 0 []) =
      .ok (N.mk v [], N.mk 0 []) := by
    rw [addLoop_succ, if_neg (by simp)]
  rw [hloop]
  simp only [Res.bind_ok]
  rw [if_neg (by simp)]

/-- The `MUL` loop with a zero receiver: every `ADD` adds zero, so the
accumulator stays at zero while the counter is consumed. -/
theorem mulLoop_zero_run :
    ∀ (k d : Nat), d ≤ 9 →
      ∃ F, ∀ f, F ≤ f →
        mulLoop f d (N.mk 0 []) (N.mk 0 []) (N.mk k []) = .ok (N.mk 0 []) := by
  intro k
  induction k using Nat.strong_induction_on with
  | _ k IH =>
  intro d hd
  match k, rfl : k = k with
  | 0, _ =>
    refine ⟨1, fun f hf => ?_⟩
    obtain ⟨f', rfl⟩ : ∃ f', f = f' + 1 := ⟨f - 1, by omega⟩
    rw [mulLoop_succ, if_neg (by simp)]
  | 1, _ =>
    refine ⟨1, fun f hf => ?_⟩
    obtain ⟨f', rfl⟩ : ∃ f', f = f' + 1 := ⟨f - 1, by omega⟩
    rw [mulLoop_succ, if_neg (by simp)]
  | (k + 2), _ =>
    obtain ⟨F, hF⟩ := IH (k + 1) (by omega) d hd
    refine ⟨F + 10, fun f hf => ?_⟩
    obtain ⟨f', rfl⟩ : ∃ f', f = f' + 1 := ⟨f - 1, by omega⟩
    rw [mulLoop_succ, if_pos (by simp only [N.value_mk]; push_cast; omega)]
    rw [op_ADD_zero hd le_rfl (by omega)]
    simp only [Res.bind_ok]
    rw [op_DEC_pos (v := ((k + 2 : Nat) : Int)) hd (by push_cast; omega) (by omega)]
    simp only [Res.bind_ok]
    have hcast : ((k + 2 : Nat) : Int) - 1 = ((k + 1 : Nat) : Int) := by push_cast; omega
    rw [hcast]
    exact hF f' (by omega)

/-- `0.op(MUL, k)` on plain operands: the result is exactly `ZERO`. -/
theorem op_MUL_zero_receiver (k : Nat) :
    ∃ F, ∀ f, F ≤ f →
      N.op f 0 (N.mk 0 []) (.MUL (N.mk k [])) = .ok (N.mk 0 []) := by
  obtain ⟨F, hF⟩ := mulLoop_zero_run k 1 (by omega)
  refine ⟨F + 10, fun f hf => ?_⟩
  obtain ⟨f', rfl⟩ : ∃ f', f = (f' + 1) + 3 := ⟨f - 4, by omega⟩
  refine op_plain (by omega) le_rfl ?_ le_rfl
  rw [execute_succ_MUL]
  exact hF f' (by omega)

/-! ## Claim theorems: C2, C6, C10 -/

/-- C2, corrected claim, counterexample: `value_from(5).op(MUL, ZERO())`
does not yield the ZERO result — the multiplication loop bound
(`while counter.value > 1`) never runs for a zero counter, so the receiver
is returned unchanged with magnitude 5 (the quirk noted in the source's
own test suite). -/
theorem c2_mul_zero_cex :
    N.op 50 0 (N.mk 5 []) (.MUL (N.mk 0 [])) = .ok (N.mk 5 []) ∧
    (N.mk 5 [] : N).value ≠ 0 ∧ (N.mk 5 [] : N).deferred = [] :=
  ⟨rfl, by norm_num, rfl⟩

/-- C2, amended: a zero-magnitude *receiver* (with empty pending queue)
does yield the ZERO result for every plain counter; but a zero (or one)
magnitude *counter* returns the receiver unchanged — `x * 0 = x`, not
ZERO. -/
theorem c2_mul_zero_amended (k : Nat) (v : Int) (b : N) (hv : 0 ≤ v)
    (hb : b.value ≤ 1) :
    (∃ F, ∀ f, F ≤ f →
      N.op f 0 (N.mk 0 []) (.MUL (N.mk k [])) = .ok (N.mk 0 [])) ∧
    (∀ f, 5 ≤ f → N.op f 0 (N.mk v []) (.MUL b) = .ok (N.mk v [])) := by
  refine ⟨op_MUL_zero_receiver k, fun f hf => ?_⟩
  exact op_MUL_le_one (by omega) hv hb hf

/-- Witness for the amended C2 at `k = 4`, `v = 5`, `b = ZERO`. -/
theorem c2_mul_zero_amended_witness :
    (∃ F, ∀ f, F ≤ f →
      N.op f 0 (N.mk 0 []) (.MUL (N.mk (4 : Nat) [])) = .ok (N.mk 0 [])) ∧
    (∀ f, 5 ≤ f → N.op f 0 (N.mk 5 []) (.MUL ZERO) = .ok (N.mk 5 [])) :=
  c2_mul_zero_amended 4 5 ZERO (by norm_num) (by norm_num [ZERO])

/-- C6: decrementing `value_from(x)` with `x > 0` yields magnitude `x - 1`
with the pending queue still empty; decrementing `value_from(0)` keeps
magnitude 0 and appends exactly one pending `Decrement`. -/
theorem c6_decrement (x : Nat) (hx : 0 < x) :
    (∀ f, 4 ≤ f → N.op f 0 (N.mk x []) .DEC = .ok (N.mk ((x : Int) - 1) [])) ∧
    N.op 100 0 (N.mk 0 []) .DEC = .ok (N.mk 0 [.DEC]) := by
  refine ⟨fun f hf => ?_, rfl⟩
  exact op_DEC_pos (by omega) (by exact_mod_cast hx) hf

/-- Witness for C6 at `x = 3`. -/
theorem c6_decrement_witness :
    (∀ f, 4 ≤ f →
      N.op f 0 (N.mk (3 : Nat) []) .DEC = .ok (N.mk (((3 : Nat) : Int) - 1) [])) ∧
    N.op 100 0 (N.mk 0 []) .DEC = .ok (N.mk 0 [.DEC]) :=
  c6_decrement 3 (by norm_num)

/-- C10: multiplying by `ONE()` is an exact identity on every plain Value:
same magnitude, empty pending queue, and the multiplication loop body
(`while counter.value > 1`) never runs, so no `ADD` is performed; the same
holds for any counter of magnitude at most 1. -/
theorem c10_mul_one (v : Int) (hv : 0 ≤ v) :
    (∀ f, 5 ≤ f → N.op f 0 (N.mk v []) (.MUL ONE) = .ok (N.mk v [])) ∧
    (∀ (b : N), b.value ≤ 1 → ∀ f, 5 ≤ f →
      N.op f 0 (N.mk v []) (.MUL b) = .ok (N.mk v [])) := by
  constructor
  · intro f hf
    exact op_MUL_le_one (by omega) hv (by norm_num [ONE]) hf
  · intro b hb f hf
    exact op_MUL_le_one (by omega) hv hb hf

/-- Witness for C10 at `v = 7`. -/
theorem c10_mul_one_witness :
    (∀ f, 5 ≤ f → N.op f 0 (N.mk 7 []) (.MUL ONE) = .ok (N.mk 7 [])) ∧
    (∀ (b : N), b.value ≤ 1 → ∀ f, 5 ≤ f →
      N.op f 0 (N.mk 7 []) (.MUL b) = .ok (N.mk 7 [])) :=
  c10_mul_one 7 (by norm_num)

/-! ## Claim theorems: C4 (invariant), C7/C8 (concrete scenarios) -/

/-- C4: the public operation API preserves well-formedness: applied to a
well-formed Value (non-negative magnitude, recursively) and a well-formed
operation, `op` never raises the constructor's negative-magnitude
`InvariantViolation`, and every normal result again has non-negative
magnitude (recursively).  Values built by `value_from(x ≥ 0)`, `ZERO()`
and `ONE()` are well-formed, so no chain of public operations can reach
the negative-magnitude failure. -/
theorem c4_no_invariant_violation (f : Nat) (n : N) (o : OP)
    (hn : NWF n) (ho : OPWF o) :
    N.op f 0 n o ≠ .err ∧
    ∀ m, N.op f 0 n o = .ok m → NWF m ∧ 0 ≤ m.value := by
  have h := (wf_engine f).2.2.1 0 n o hn ho
  exact ⟨h.1, fun m hm => ⟨h.2 m hm, (h.2 m hm).value_nonneg⟩⟩

/-- Witness for C4 at `n = value_from(5)`, `o = Decrement`, fuel 50. -/
theorem c4_no_invariant_violation_witness :
    N.op 50 0 (N.mk 5 []) .DEC ≠ .err ∧
    ∀ m, N.op 50 0 (N.mk 5 []) .DEC = .ok m → NWF m ∧ 0 ≤ m.value :=
  c4_no_invariant_violation 50 (N.mk 5 []) .DEC (NWF_num (by norm_num)) OPWF.dec

/-- C7 (code bug): `value_from(7).op(DIV, 2).op(MUL, 2)` does *not* cancel
back to magnitude 7 with empty pending queue, as the spec and the source's
own test expect; the engine returns magnitude 3 with two pending
operations (the division's deferred remainder chain was produced in the
nested `remChain` form, whose captured operand keeps magnitude 1 buried
one level down where `MUL`'s loop cannot fold it back). -/
theorem c7_div_then_mul_failing :
    (Res.bind (N.op 400 0 (N.mk 7 []) (.DIV (N.mk 2 [])))
      fun r => N.op 400 0 r (.MUL (N.mk 2 []))) =
      .ok (N.mk 3 [.ADD (remChain 1 (N.mk 2 []) 9), .MUL (N.mk 2 [])]) ∧
    (N.mk 3 [.ADD (remChain 1 (N.mk 2 []) 9), .MUL (N.mk 2 [])] : N).value = 3 ∧
    (N.mk 3 [.ADD (remChain 1 (N.mk 2 []) 9), .MUL (N.mk 2 [])] : N).deferred.length = 2 :=
  ⟨rfl, rfl, rfl⟩

/-- C8 (code bug): `value_from(5).op(DIV, 3)` has magnitude 1 and pending
length 1 as claimed, but its rendering is the nested remainder chain, not
the flat `"1[ADD(2[DIV(3)])]"` the source's own test (and, spelt
`Add`/`Divide`, the spec) expects. -/
theorem c8_render_failing :
    N.op 400 0 (N.mk 5 []) (.DIV (N.mk 3 [])) =
      .ok (N.mk 1 [.ADD (remChain 2 (N.mk 3 []) 9)]) ∧
    N.render (N.mk 1 [.ADD (remChain 2 (N.mk 3 []) 9)]) =
      "1[ADD(0[ADD(0[ADD(0[ADD(0[ADD(0[ADD(0[ADD(0[ADD(0[ADD(0[ADD(2[DIV(3)])])])])])])])])])])]" ∧
    N.render (N.mk 1 [.ADD (remChain 2 (N.mk 3 []) 9)]) ≠ "1[Add(2[Divide(3)])]" ∧
    N.render (N.mk 1 [.ADD (remChain 2 (N.mk 3 []) 9)]) ≠ "1[ADD(2[DIV(3)])]" ∧
    (N.mk 1 [.ADD (remChain 2 (N.mk 3 []) 9)] : N).value = 1 ∧
    (N.mk 1 [.ADD (remChain 2 (N.mk 3 []) 9)] : N).deferred.length = 1 :=
  ⟨rfl, rfl, by decide, by decide, rfl, rfl⟩

/-! ## C5: the depth bound, and a draining step that does not terminate -/

/-- The Value `1[ADD(0[DEC])]`, reachable through the public API as
`ONE().op(ADD, ZERO().op(DEC))`.  Probing it with `DEC` never reduces its
magnitude: the leading replay-`ADD` defers itself and the probe is
appended behind it. -/
def stuckOperand : N := N.mk 1 [.ADD (N.mk 0 [.DEC])]

/-- The stuck operand after `k` futile decrement probes. -/
def stuckN (k : Nat) : N := N.mk 1 (.ADD (N.mk 0 [.DEC]) :: DECs k)

@[simp] theorem stuckN_zero : stuckN 0 = stuckOperand := rfl

/-- Draining `n` terminates for **some** fuel (the fuelled embedding's
rendering of "the source's `evaluate()` call returns"). -/
def drainingTerminates (n : N) : Prop := ∃ f, N.evaluate f 0 n ≠ Res.fuel

/-- A decrement probe on the stuck operand either merely grows its queue
or runs out of fuel — its magnitude never changes. -/
theorem stuck_probe (f d k : Nat) :
    N.op f d (stuckN k) .DEC = .ok (stuckN (k + 1)) ∨
    N.op f d (stuckN k) .DEC = .fuel := by
  have hlist : (stuckN k).deferred ++ [OP.DEC] =
      .ADD (N.mk 0 [.DEC]) :: DECs (k + 1) := by
    simp only [stuckN, N.deferred_mk, List.cons_append, DECs_append_one]
  by_cases hd : 10 ≤ d
  · match f, rfl : f = f with
    | 0, _ => right; simp
    | 1, _ =>
      right
      rw [op_succ, mkN_nonneg (by simp [stuckN])]
      simp
    | (f + 2), _ =>
      left
      have := op_bail (f := f + 2) (d := d) (n := stuckN k) (o := .DEC) hd
        (by omega) (by simp [stuckN])
      rw [this, hlist]
      rfl
  · push_neg at hd
    match f, rfl : f = f with
    | 0, _ => right; simp
    | 1, _ =>
      right
      rw [op_succ, mkN_nonneg (by simp [stuckN])]
      simp
    | 2, _ =>
      right
      rw [op_eq_evaluate _ (by simp [stuckN])]
      rw [show (stuckN k).value = 1 by simp [stuckN], hlist]
      rw [evaluate_eq_loop (by omega) (by norm_num)]
      simp
    | 3, _ =>
      right
      rw [op_eq_evaluate _ (by simp [stuckN])]
      rw [show (stuckN k).value = 1 by simp [stuckN], hlist]
      rw [evaluate_eq_loop (by omega) (by norm_num)]
      simp only [N.value_mk, N.deferred_mk]
      rw [evalLoop_succ_cons]
      simp
    | 4, _ =>
      right
      rw [op_eq_evaluate _ (by simp [stuckN])]
      rw [show (stuckN k).value = 1 by simp [stuckN], hlist]
      rw [evaluate_eq_loop (by omega) (by norm_num)]
      simp only [N.value_mk, N.deferred_mk]
      rw [evalLoop_succ_cons, execute_succ_ADD]
      simp
    | (f + 5), _ =>
      rw [op_eq_evaluate _ (by simp [stuckN])]
      rw [show (stuckN k).value = 1 by simp [stuckN], hlist]
      rw [evaluate_eq_loop (by omega) (by norm_num)]
      simp only [N.value_mk, N.deferred_mk]
      rw [evalLoop_succ_cons, execute_succ_ADD]
      have hloop : addLoop (f + 1) (d + 1) (N.mk 1 []) (N.mk 0 [.DEC]) =
          .ok (N.mk 1 [], N.mk 0 [.DEC]) := by
        rw [addLoop_succ, if_neg (by simp)]
      rw [hloop]
      simp only [Res.bind_ok]
      rw [if_pos (by simp)]
      rcases add0_safe (f + 1) (d + 1) 1 (N.mk 0 [.DEC]) (by norm_num)
        (by simp) (by simp) with hok | hfuel
      · left
        rw [hok]
        simp only [Res.bind_ok]
        rw [if_pos (by simp)]
        simp only [N.value_mk, N.deferred_mk]
        have hl2 : ([OP.ADD (N.mk 0 [.DEC])] : List OP) ++ DECs (k + 1) =
            .ADD (N.mk 0 [.DEC]) :: DECs (k + 1) := List.singleton_append
        rw [hl2]
        exact mkN_nonneg (by norm_num) _
      · right
        rw [hfuel]
        simp

/-- The `SUB` loop against the stuck operand never finishes, whatever the
fuel: the counter's magnitude stays 1 forever. -/
theorem subLoop_stuck :
    ∀ f d (a : N) (k : Nat), NWF a → subLoop f d a (stuckN k) = .fuel := by
  intro f
  induction f using Nat.strong_induction_on with
  | _ f IH =>
  intro d a k ha
  match f, rfl : f = f with
  | 0, _ => simp
  | (f + 1), _ =>
    rw [subLoop_succ, if_pos (by simp [stuckN])]
    have hgood := (wf_engine f).2.2.1 d a .DEC ha OPWF.dec
    cases hop : N.op f d a .DEC with
    | err => exact absurd hop hgood.1
    | fuel => simp
    | ok a' =>
      simp only [Res.bind_ok]
      rcases stuck_probe f d k with hok | hfuel
      · rw [hok]
        simp only [Res.bind_ok]
        exact IH f (by omega) d a' (k + 1) (hgood.2 a' hop)
      · rw [hfuel]
        simp

/-- Draining `5[SUB(1[ADD(0[DEC])])]` never terminates: for every fuel the
evaluation is still unfinished. -/
theorem draining_diverges :
    ∀ f, N.evaluate f 0 (N.mk 5 [.SUB stuckOperand]) = .fuel := by
  intro f
  match f, rfl : f = f with
  | 0, _ => simp
  | 1, _ =>
    rw [evaluate_eq_loop (by omega) (by norm_num)]
    simp
  | 2, _ =>
    rw [evaluate_eq_loop (by omega) (by norm_num)]
    simp only [N.value_mk, N.deferred_mk]
    rw [evalLoop_succ_cons]
    simp
  | (f + 3), _ =>
    rw [← stuckN_zero]
    rw [evaluate_eq_loop (by omega) (by norm_num)]
    simp only [N.value_mk, N.deferred_mk]
    rw [evalLoop_succ_cons, execute_succ_SUB]
    rw [subLoop_stuck f (0 + 1) (N.mk 5 []) 0 (NWF_num (by norm_num))]
    simp

/-- C5, counterexample to unconditional termination of draining: the Value
`5[SUB(1[ADD(0[DEC])])]` — whose operand is reachable through the public
API as `ONE().op(ADD, ZERO().op(DEC))` — never finishes draining at any
fuel, despite the depth bound. -/
theorem c5_termination_cex :
    ¬ drainingTerminates (N.mk 5 [.SUB stuckOperand]) ∧
    N.op 100 0 ZERO .DEC = .ok (N.mk 0 [.DEC]) ∧
    N.op 100 0 ONE (.ADD (N.mk 0 [.DEC])) = .ok stuckOperand := by
  refine ⟨?_, rfl, rfl⟩
  intro ⟨f, hf⟩
  exact hf (draining_diverges f)

/-- C5, amended: the depth bound itself is honoured — once the counter
would exceed 10, draining stops immediately and returns the Value
unchanged, and an `op` at exceeded depth returns the receiver with the
untried operation appended to its pending queue without attempting to
apply it.  (Termination of draining for *every* Value, however, is
refuted by `c5_termination_cex`.) -/
theorem c5_depth_bound (f d : Nat) (n : N) (o : OP) :
    (10 ≤ d → 1 ≤ f → N.evaluate f d n = .ok n) ∧
    (10 ≤ d → 2 ≤ f → 0 ≤ n.value →
      N.op f d n o = .ok (N.mk n.value (n.deferred ++ [o]))) := by
  constructor
  · intro hd hf
    exact evaluate_bail hd hf
  · intro hd hf hv
    exact op_bail hd hf hv

/-- Witness for the amended C5 at depth 10 on `2[DIV(3)]`. -/
theorem c5_depth_bound_witness :
    (10 ≤ 10 → 1 ≤ 5 →
      N.evaluate 5 10 (N.mk 2 [.DIV (N.mk 3 [])]) = .ok (N.mk 2 [.DIV (N.mk 3 [])])) ∧
    (10 ≤ 10 → 2 ≤ 5 → 0 ≤ (N.mk 2 [.DIV (N.mk 3 [])] : N).value →
      N.op 5 10 (N.mk 2 [.DIV (N.mk 3 [])]) .DEC =
        .ok (N.mk (N.mk 2 [.DIV (N.mk 3 [])] : N).value
          ((N.mk 2 [.DIV (N.mk 3 [])] : N).deferred ++ [.DEC]))) :=
  c5_depth_bound 5 10 (N.mk 2 [.DIV (N.mk 3 [])]) .DEC

/-! ## C3: the three "non-error" arithmetic cases -/

/-- C3: division by a zero divisor, subtraction past zero and
non-terminating division are not errors.  (1) `op` never raises on
well-formed inputs; (2) dividing a plain Value by a zero-magnitude divisor
returns normally, with pending work exactly when the receiver is non-zero;
(3) subtracting a larger plain Value returns magnitude 0 with the missing
decrements pending; (4) a non-exact division by a positive plain divisor
returns normally with pending work.  Incompleteness is observable only as
a non-empty pending queue. -/
theorem c3_no_error_cases :
    (∀ (f : Nat) (n : N) (o : OP), NWF n → OPWF o → N.op f 0 n o ≠ .err) ∧
    (∀ (a : Nat) (bz : N), bz.value = 0 →
      ∃ F r, (∀ f, F ≤ f → N.op f 0 (N.mk a []) (.DIV bz) = .ok r) ∧
        (r.deferred = [] ↔ a = 0)) ∧
    (∀ (a b : Nat), a < b →
      ∃ F, (∀ f, F ≤ f →
          N.op f 0 (N.mk a []) (.SUB (N.mk b [])) = .ok (N.mk 0 (DECs (b - a)))) ∧
        DECs (b - a) ≠ []) ∧
    (∀ (a b : Nat), 0 < b → a % b ≠ 0 →
      ∃ F r, (∀ f, F ≤ f → N.op f 0 (N.mk a []) (.DIV (N.mk b [])) = .ok r) ∧
        r.deferred ≠ []) := by
  refine ⟨?_, ?_, ?_, ?_⟩
  · intro f n o hn ho
    exact ((wf_engine f).2.2.1 0 n o hn ho).1
  · intro a bz hbz
    obtain ⟨F, hF⟩ := op_DIV_zero a bz hbz
    by_cases ha : a = 0
    · refine ⟨F, N.mk 0 [], fun f hf => ?_, by simp [ha]⟩
      have := hF f hf
      rwa [if_pos ha] at this
    · refine ⟨F, N.mk 0 [.ADD (remChain (a : Int) bz 9)], fun f hf => ?_, ?_⟩
      · have := hF f hf
        rwa [if_neg ha] at this
      · simp [ha]
  · intro a b hab
    obtain ⟨F, hF⟩ := op_SUB_run 0 (by omega) a b
    refine ⟨F, fun f hf => ?_, ?_⟩
    · have := hF f hf
      rwa [show ((a - b : Nat) : Int) = 0 by
        rw [Nat.sub_eq_zero_of_le (by omega)]
        norm_num] at this
    · simp only [DECs, ne_eq, List.replicate_eq_nil_iff]
      omega
  · intro a b hb hm
    obtain ⟨F, hF⟩ := op_DIV_run a b hb
    refine ⟨F, N.mk ((a / b : Nat) : Int)
      [.ADD (remChain ((a % b : Nat) : Int) (N.mk b []) 9)], fun f hf => ?_, by simp⟩
    have := hF f hf
    rwa [if_neg hm] at this

/-- Witness for C3: subtraction past zero at `3 - 5`. -/
theorem c3_no_error_cases_witness :
    ∃ F, (∀ f, F ≤ f →
        N.op f 0 (N.mk (3 : Nat) []) (.SUB (N.mk (5 : Nat) [])) =
          .ok (N.mk 0 (DECs (5 - 3)))) ∧
      DECs (5 - 3) ≠ [] :=
  c3_no_error_cases.2.2.1 3 5 (by norm_num)

/-! ## C9: draining is a fixed point on op-produced Values

The development below classifies every normal result the engine can
produce.  A result is either fully drained (empty queue) or headed by a
*self-reproducing* operation — a deferred decrement at magnitude zero, or
a replayed `ADD` whose operand is exhausted but indebted.  Re-executing
such a head reproduces the Value exactly, which is why draining an
op-produced Value is a fixed point.  (At the depth boundary the `DIV` case
can also emit a magnitude-0 Value headed by an `ADD` of a positive
remainder; the classification tracks that this shape only appears at
depth 10, where it is always wrapped into a stable head before escaping.) -/

/-- A self-reproducing queue head for a Value of magnitude `v`. -/
def SHead (v : Int) (o : OP) : Prop :=
  (v = 0 ∧ o = .DEC) ∨ (∃ x, o = .ADD x ∧ x.value ≤ 0 ∧ x.deferred ≠ [])

/-- A Value headed by a self-reproducing operation. -/
def Headed (r : N) : Prop :=
  ∃ o rest, r.deferred = o :: rest ∧ SHead r.value o

/-- The canonical result classification: drained, or stable-headed. -/
def ResC (r : N) : Prop :=
  0 ≤ r.value ∧ (r.deferred = [] ∨ Headed r)

/-- The depth-10 exception shape: magnitude 0 with unfinished work. -/
def BadR (r : N) : Prop := r.value = 0 ∧ r.deferred ≠ []

/-- The accumulator shapes attainable inside `SUB`'s loop. -/
def SubAcc (a : N) : Prop :=
  (0 ≤ a.value ∧ a.deferred = []) ∨ (a.value = 0 ∧ ∃ k, a.deferred = DECs (k + 1))

/-- Is this operation a `DIV`? -/
def isDIVop : OP → Prop
  | .DIV _ => True
  | _ => False

theorem SubAcc_ResC {a : N} (h : SubAcc a) : ResC a := by
  rcases h with ⟨hv, hd⟩ | ⟨hv, k, hd⟩
  · exact ⟨hv, Or.inl hd⟩
  · refine ⟨by omega, Or.inr ⟨.DEC, DECs k, ?_, Or.inl ⟨hv, rfl⟩⟩⟩
    rw [hd]
    simp [DECs, List.replicate_succ]

/-- At exceeded depth every `op` that returns normally returns exactly the
receiver with the operation appended. -/
theorem op10_shape {f d : Nat} {n : N} {o : OP} {r : N} (hd : 10 ≤ d)
    (h : N.op f d n o = .ok r) : r = N.mk n.value (n.deferred ++ [o]) ∧ 0 ≤ n.value := by
  obtain ⟨f', rfl⟩ : ∃ f', f = f' + 1 := by
    cases f with
    | zero => simp at h
    | succ f => exact ⟨f, rfl⟩
  rw [op_succ] at h
  by_cases hv : 0 ≤ n.value
  · rw [mkN_nonneg hv] at h
    simp only [Res.bind_ok] at h
    cases f' with
    | zero => simp at h
    | succ f'' =>
      rw [evaluate_bail hd (by omega)] at h
      cases h
      exact ⟨rfl, hv⟩
  · rw [show mkN n.value (n.deferred ++ [o]) = .err by
      simp [mkN, show n.value < 0 by omega]] at h
    simp at h

/-- An `INC` probe on a plain Value within the depth bound: either applies
exactly, or runs out of fuel. -/
theorem op_INC_safe {f d : Nat} {v : Int} (hd : d ≤ 9) (hv : 0 ≤ v) :
    N.op f d (N.mk v []) .INC = .ok (N.mk (v + 1) []) ∨
    N.op f d (N.mk v []) .INC = .fuel := by
  by_cases hf : 4 ≤ f
  · exact Or.inl (op_INC hd hv hf)
  · right
    match f, rfl : f = f with
    | 0, _ => simp
    | 1, _ =>
      rw [op_succ, mkN_nonneg (by simpa using hv)]
      simp
    | 2, _ =>
      rw [op_eq_evaluate _ (by simpa using hv)]
      simp only [N.value_mk, N.deferred_mk, List.nil_append]
      rw [evaluate_eq_loop (by omega) (by simpa using hv)]
      simp
    | 3, _ =>
      rw [op_eq_evaluate _ (by simpa using hv)]
      simp only [N.value_mk, N.deferred_mk, List.nil_append]
      rw [evaluate_eq_loop (by omega) (by simpa using hv)]
      simp only [N.value_mk, N.deferred_mk]
      rw [evalLoop_succ_cons]
      simp
    | (f + 4), _ => omega

/-- A `DEC` probe on a plain positive Value within the depth bound. -/
theorem op_DEC_pos_safe {f d : Nat} {v : Int} (hd : d ≤ 9) (hv : 0 < v) :
    N.op f d (N.mk v []) .DEC = .ok (N.mk (v - 1) []) ∨
    N.op f d (N.mk v []) .DEC = .fuel := by
  by_cases hf : 4 ≤ f
  · exact Or.inl (op_DEC_pos hd hv hf)
  · right
    match f, rfl : f = f with
    | 0, _ => simp
    | 1, _ =>
      rw [op_succ, mkN_nonneg (by simpa using hv.le)]
      simp
    | 2, _ =>
      rw [op_eq_evaluate _ (by simpa using hv.le)]
      simp only [N.value_mk, N.deferred_mk, List.nil_append]
      rw [evaluate_eq_loop (by omega) (by simpa using hv.le)]
      simp
    | 3, _ =>
      rw [op_eq_evaluate _ (by simpa using hv.le)]
      simp only [N.value_mk, N.deferred_mk, List.nil_append]
      rw [evaluate_eq_loop (by omega) (by simpa using hv.le)]
      simp only [N.value_mk, N.deferred_mk]
      rw [evalLoop_succ_cons]
      simp
    | (f + 4), _ => omega

/-- A `DEC` probe at magnitude zero, safety version: at every depth and
fuel it either appends one more deferred decrement or runs out of fuel. -/
theorem dec0_safe :
    ∀ (f d k : Nat),
      N.op f d (N.mk 0 (DECs k)) .DEC = .ok (N.mk 0 (DECs (k + 1))) ∨
      N.op f d (N.mk 0 (DECs k)) .DEC = .fuel := by
  intro f
  induction f using Nat.strong_induction_on with
  | _ f IH =>
  intro d k
  have hlist : (N.mk 0 (DECs k) : N).deferred ++ [OP.DEC] = DECs (k + 1) := by
    simp only [N.deferred_mk, DECs_append_one]
  have hcons : DECs (k + 1) = .DEC :: DECs k := by
    simp [DECs, List.replicate_succ]
  have hk0 : (N.mk 0 [] : N) = N.mk 0 (DECs 0) := by
    simp [DECs]
  by_cases hd : 10 ≤ d
  · match f, rfl : f = f with
    | 0, _ => right; simp
    | 1, _ =>
      right
      rw [op_succ, mkN_nonneg (by simp)]
      simp
    | (f + 2), _ =>
      left
      have := op_bail (f := f + 2) (d := d) (n := N.mk 0 (DECs k)) (o := .DEC) hd
        (by omega) (by simp)
      rw [this, hlist]
      simp
  · push_neg at hd
    match f, rfl : f = f with
    | 0, _ => right; simp
    | 1, _ =>
      right
      rw [op_succ, mkN_nonneg (by simp)]
      simp
    | 2, _ =>
      right
      rw [op_eq_evaluate _ (by simp)]
      simp only [N.value_mk, N.deferred_mk, DECs_append_one]
      rw [evaluate_eq_loop (by omega) (by norm_num)]
      simp
    | 3, _ =>
      right
      rw [op_eq_evaluate _ (by simp)]
      simp only [N.value_mk, N.deferred_mk, DECs_append_one]
      rw [evaluate_eq_loop (by omega) (by norm_num)]
      simp only [N.value_mk, N.deferred_mk]
      rw [hcons, evalLoop_succ_cons]
      simp
    | (f + 4), _ =>
      rw [op_eq_evaluate _ (by simp)]
      simp only [N.value_mk, N.deferred_mk, DECs_append_one]
      rw [evaluate_eq_loop (by omega) (by norm_num)]
      simp only [N.value_mk, N.deferred_mk]
      rw [hcons, evalLoop_succ_cons, execute_succ_DEC]
      simp only [N.value_mk]
      rw [if_pos (by norm_num), hk0]
      rcases IH f (by omega) (d + 1) 0 with hok | hfuel
      · left
        rw [hok]
        simp only [Res.bind_ok]
        rw [if_pos (by simp [DECs])]
        simp only [N.value_mk, N.deferred_mk]
        rw [show DECs (0 + 1) ++ DECs k = OP.DEC :: DECs k by
          simp [DECs, List.replicate_succ]]
        exact mkN_nonneg le_rfl _
      · right
        rw [hfuel]
        simp

/-- Executing a self-reproducing head against its own magnitude reproduces
the Value (safety version: or runs out of fuel). -/
theorem exec_shead_safe {f e : Nat} {v : Int} {o : OP} (h : SHead v o) (hv : 0 ≤ v) :
    execute f e o (N.mk v []) = .ok (N.mk v [o]) ∨
    execute f e o (N.mk v []) = .fuel := by
  rcases h with ⟨hv0, rfl⟩ | ⟨x, rfl, hx, hxd⟩
  · subst hv0
    match f, rfl : f = f with
    | 0, _ => right; simp
    | (f + 1), _ =>
      rw [execute_succ_DEC]
      simp only [N.value_mk]
      rw [if_pos (by norm_num)]
      rw [show (N.mk 0 [] : N) = N.mk 0 (DECs 0) by simp [DECs]]
      rcases dec0_safe f e 0 with hok | hfuel
      · left
        rw [hok]
        simp [DECs]
      · right
        rw [hfuel]
  · match f, rfl : f = f with
    | 0, _ => right; simp
    | 1, _ =>
      right
      rw [execute_succ_ADD]
      simp
    | (f + 2), _ =>
      rw [execute_succ_ADD]
      have hloop : addLoop (f + 1) e (N.mk v []) x = .ok (N.mk v [], x) := by
        rw [addLoop_succ, if_neg (by omega)]
      rw [hloop]
      simp only [Res.bind_ok]
      rw [if_pos (by simpa using List.length_pos.mpr hxd)]
      rcases add0_safe (f + 1) e v x hv hx hxd with hok | hfuel
      · left
        rw [hok]
      · right
        rw [hfuel]

/-- Probing a stable-headed Value with any operation merely appends the
operation behind its queue (safety version). -/
theorem probe_append_safe {f d : Nat} {v : Int} {o : OP} {rest : List OP} {o' : OP}
    (h : SHead v o) (hv : 0 ≤ v) :
    N.op f d (N.mk v (o :: rest)) o' = .ok (N.mk v (o :: (rest ++ [o']))) ∨
    N.op f d (N.mk v (o :: rest)) o' = .fuel := by
  by_cases hd : 10 ≤ d
  · match f, rfl : f = f with
    | 0, _ => right; simp
    | 1, _ =>
      right
      rw [op_succ, mkN_nonneg (by simpa using hv)]
      simp
    | (f + 2), _ =>
      left
      have := op_bail (f := f + 2) (d := d) (n := N.mk v (o :: rest)) (o := o') hd
        (by omega) (by simpa using hv)
      rw [this]
      simp
  · push_neg at hd
    match f, rfl : f = f with
    | 0, _ => right; simp
    | 1, _ =>
      right
      rw [op_succ, mkN_nonneg (by simpa using hv)]
      simp
    | 2, _ =>
      right
      rw [op_eq_evaluate _ (by simpa using hv)]
      simp only [N.value_mk, N.deferred_mk, List.cons_append]
      rw [evaluate_eq_loop (by omega) (by simpa using hv)]
      simp
    | (f + 3), _ =>
      rw [op_eq_evaluate _ (by simpa using hv)]
      simp only [N.value_mk, N.deferred_mk, List.cons_append]
      rw [evaluate_eq_loop (by omega) (by simpa using hv)]
      simp only [N.value_mk, N.deferred_mk]
      rw [evalLoop_succ_cons]
      rcases exec_shead_safe (f := f) (e := d + 1) h hv with hok | hfuel
      · left
        rw [hok]
        simp only [Res.bind_ok]
        rw [if_pos (by simp)]
        simp only [N.value_mk, N.deferred_mk]
        rw [show ([o] : List OP) ++ (rest ++ [o']) = o :: (rest ++ [o']) from
          List.singleton_append]
        exact mkN_nonneg (by simpa using hv) _
      · right
        rw [hfuel]
        simp

/-- Totality counterpart: executing a self-reproducing head reproduces the
Value for all sufficiently large fuel (within the depth bound). -/
theorem exec_shead_total {e : Nat} {v : Int} {o : OP} (h : SHead v o) (hv : 0 ≤ v) :
    ∃ F, ∀ f, F ≤ f → execute f e o (N.mk v []) = .ok (N.mk v [o]) := by
  rcases h with ⟨hv0, rfl⟩ | ⟨x, rfl, hx, hxd⟩
  · subst hv0
    obtain ⟨F, hF⟩ := op_DEC_zero e 0
    refine ⟨F + 2, fun f hf => ?_⟩
    obtain ⟨f', rfl⟩ : ∃ f', f = f' + 1 := ⟨f - 1, by omega⟩
    rw [execute_succ_DEC]
    simp only [N.value_mk, if_pos rfl]
    have hk0 : (N.mk 0 [] : N) = N.mk 0 (DECs 0) := rfl
    rw [hk0, hF f' (by omega)]
    rfl
  · obtain ⟨F, hF⟩ := add0_total e v x hv hx hxd
    refine ⟨F + 2, fun f hf => ?_⟩
    obtain ⟨f', rfl⟩ : ∃ f', f = f' + 2 := ⟨f - 2, by omega⟩
    rw [execute_succ_ADD]
    have hloop : addLoop (f' + 1) e (N.mk v []) x = .ok (N.mk v [], x) := by
      rw [addLoop_succ, if_neg (by omega)]
    rw [hloop]
    simp only [Res.bind_ok]
    rw [if_pos (by simpa using List.length_pos.mpr hxd)]
    exact hF (f' + 1) (by omega)

/-- At depth 10, the `ADD` loop with a positive counter livelocks: both
probes merely append (depth-bound bail), so the counter's magnitude never
decreases and the loop consumes all fuel. -/
theorem addLoop_stall10 :
    ∀ (f : Nat) (a b : N), NWF a → NWF b → 0 < b.value → addLoop f 10 a b = .fuel := by
  intro f
  induction f using Nat.strong_induction_on with
  | _ f IH =>
  intro a b ha hb hbv
  match f, rfl : f = f with
  | 0, _ => simp
  | (f + 1), _ =>
    rw [addLoop_succ, if_pos hbv]
    have hga := (wf_engine f).2.2.1 10 a .INC ha OPWF.inc
    cases hopa : N.op f 10 a .INC with
    | err => exact absurd hopa hga.1
    | fuel => simp
    | ok a' =>
      simp only [Res.bind_ok]
      have hgb := (wf_engine f).2.2.1 10 b .DEC hb OPWF.dec
      cases hopb : N.op f 10 b .DEC with
      | err => exact absurd hopb hgb.1
      | fuel => simp
      | ok b' =>
        simp only [Res.bind_ok]
        obtain ⟨rfl, _⟩ := op10_shape (by omega) hopb
        exact IH f (by omega) a' (N.mk b.value (b.deferred ++ [.DEC]))
          (hga.2 a' hopa) (hgb.2 _ hopb) (by simpa using hbv)

/-- At depth 10, the `SUB` loop with a positive counter livelocks. -/
theorem subLoop_stall10 :
    ∀ (f : Nat) (a b : N), NWF a → NWF b → 0 < b.value → subLoop f 10 a b = .fuel := by
  intro f
  induction f using Nat.strong_induction_on with
  | _ f IH =>
  intro a b ha hb hbv
  match f, rfl : f = f with
  | 0, _ => simp
  | (f + 1), _ =>
    rw [subLoop_succ, if_pos hbv]
    have hga := (wf_engine f).2.2.1 10 a .DEC ha OPWF.dec
    cases hopa : N.op f 10 a .DEC with
    | err => exact absurd hopa hga.1
    | fuel => simp
    | ok a' =>
      simp only [Res.bind_ok]
      have hgb := (wf_engine f).2.2.1 10 b .DEC hb OPWF.dec
      cases hopb : N.op f 10 b .DEC with
      | err => exact absurd hopb hgb.1
      | fuel => simp
      | ok b' =>
        simp only [Res.bind_ok]
        obtain ⟨rfl, _⟩ := op10_shape (by omega) hopb
        exact IH f (by omega) a' (N.mk b.value (b.deferred ++ [.DEC]))
          (hga.2 a' hopa) (hgb.2 _ hopb) (by simpa using hbv)

/-- At depth 10, the `MUL` loop with a counter above 1 livelocks. -/
theorem mulLoop_stall10 :
    ∀ (f : Nat) (n a c : N), NWF n → NWF a → NWF c → 1 < c.value →
      mulLoop f 10 n a c = .fuel := by
  intro f
  induction f using Nat.strong_induction_on with
  | _ f IH =>
  intro n a c hn ha hc hcv
  match f, rfl : f = f with
  | 0, _ => simp
  | (f + 1), _ =>
    rw [mulLoop_succ, if_pos hcv]
    have hga := (wf_engine f).2.2.1 10 a (.ADD n) ha (OPWF.add _ hn)
    cases hopa : N.op f 10 a (.ADD n) with
    | err => exact absurd hopa hga.1
    | fuel => simp
    | ok a' =>
      simp only [Res.bind_ok]
      have hgc := (wf_engine f).2.2.1 10 c .DEC hc OPWF.dec
      cases hopc : N.op f 10 c .DEC with
      | err => exact absurd hopc hgc.1
      | fuel => simp
      | ok c' =>
        simp only [Res.bind_ok]
        obtain ⟨rfl, _⟩ := op10_shape (by omega) hopc
        exact IH f (by omega) n a' (N.mk c.value (c.deferred ++ [.DEC]))
          hn (hga.2 a' hopa) (hgc.2 _ hopc) (by simpa using hcv)

/-- At depth 10, the `DIV` loop with a runnable condition livelocks. -/
theorem divLoop_stall10 :
    ∀ (f : Nat) (b q r : N), NWF b → NWF q → NWF r →
      r.value ≥ b.value → 0 < b.value → divLoop f 10 b q r = .fuel := by
  intro f
  induction f using Nat.strong_induction_on with
  | _ f IH =>
  intro b q r hb hq hr hge hbv
  match f, rfl : f = f with
  | 0, _ => simp
  | (f + 1), _ =>
    rw [divLoop_succ, if_pos ⟨hge, hbv⟩]
    have hgr := (wf_engine f).2.2.1 10 r (.SUB b) hr (OPWF.sub _ hb)
    cases hopr : N.op f 10 r (.SUB b) with
    | err => exact absurd hopr hgr.1
    | fuel => simp
    | ok r' =>
      simp only [Res.bind_ok]
      have hgq := (wf_engine f).2.2.1 10 q .INC hq OPWF.inc
      cases hopq : N.op f 10 q .INC with
      | err => exact absurd hopq hgq.1
      | fuel => simp
      | ok q' =>
        simp only [Res.bind_ok]
        obtain ⟨rfl, _⟩ := op10_shape (by omega) hopr
        exact IH f (by omega) b q' (N.mk r.value (r.deferred ++ [.SUB b]))
          hb (hgq.2 q' hopq) (hgr.2 _ hopr) (by simpa using hge) hbv

/-- Explicit-argument form of `probe_append_safe`, for positional use. -/
theorem probe_append_safe2 (f d : Nat) (v : Int) (o : OP) (l : List OP) (p : OP)
    (h : SHead v o) (hv : 0 ≤ v) :
    N.op f d (N.mk v (o :: l)) p = .ok (N.mk v (o :: (l ++ [p]))) ∨
    N.op f d (N.mk v (o :: l)) p = .fuel :=
  probe_append_safe h hv

theorem isDIVop_elim {o : OP} (h : isDIVop o) : ∃ x, o = .DIV x := by
  cases o with
  | DIV b => exact ⟨b, rfl⟩
  | INC => exact False.elim h
  | DEC => exact False.elim h
  | ADD b => exact False.elim h
  | SUB b => exact False.elim h
  | MUL b => exact False.elim h

/-- Probing a canonical (drained or stable-headed) Value with a non-`DIV`
operation within the depth bound gives back a canonical Value; `L` is the
`op`-classification at the probe's fuel. -/
theorem probe_resc (f : Nat)
    (L : ∀ d n o r, d ≤ 9 → NWF n → OPWF o → N.op f d n o = .ok r →
      ResC r ∨ (d = 9 ∧ (∃ x, OP.DIV x ∈ n.deferred ++ [o]) ∧ BadR r))
    (d : Nat) (a : N) (o : OP) (b : N)
    (hd : d ≤ 9) (har : ResC a) (haw : NWF a) (ho : OPWF o)
    (hno : ∀ x, o ≠ .DIV x)
    (h : N.op f d a o = .ok b) : ResC b := by
  obtain ⟨hav, hplain | hhead⟩ := har
  · rcases L d a o b hd haw ho h with hres | ⟨_, ⟨x, hx⟩, _⟩
    · exact hres
    · rw [hplain] at hx
      simp at hx
      exact absurd hx.symm (hno x)
  · obtain ⟨oh, rest, hdef, hsh⟩ := hhead
    have haeq : a = N.mk a.value (oh :: rest) := by
      rw [N.ext_iff]
      simp [hdef]
    rw [haeq] at h
    rcases probe_append_safe2 f d a.value oh rest o hsh hav with hok | hfuel
    · rw [h] at hok
      injection hok with h2
      subst h2
      exact ⟨by simpa using hav, Or.inr ⟨oh, rest ++ [o], rfl, hsh⟩⟩
    · rw [h] at hfuel
      simp at hfuel

/-- The classification invariant of the whole engine: within the depth
bound, every normal result of draining is canonical (`ResC`: drained, or
headed by a self-reproducing operation); the only exception is the
depth-10 `DIV` wrap, which yields the `BadR` shape and is tracked by the
side condition requiring an actual `DIV` in the queue being drained. -/
theorem classify_engine :
    ∀ f,
      (∀ d n r, d ≤ 9 → NWF n → N.evaluate f d n = .ok r →
        ResC r ∨ (d = 9 ∧ (∃ x, OP.DIV x ∈ n.deferred) ∧ BadR r)) ∧
      (∀ e v ops r, e ≤ 10 → 0 ≤ v → (∀ o ∈ ops, OPWF o) →
        evalLoop f e (N.mk v []) ops = .ok r →
        ResC r ∨ (e = 10 ∧ (∃ x, OP.DIV x ∈ ops) ∧ BadR r)) ∧
      (∀ d n o r, d ≤ 9 → NWF n → OPWF o → N.op f d n o = .ok r →
        ResC r ∨ (d = 9 ∧ (∃ x, OP.DIV x ∈ n.deferred ++ [o]) ∧ BadR r)) ∧
      (∀ e o v c, e ≤ 10 → OPWF o → 0 ≤ v → execute f e o (N.mk v []) = .ok c →
        ResC c ∨ (e = 10 ∧ isDIVop o ∧ BadR c)) ∧
      (∀ e a b p, e ≤ 10 → ResC a → NWF a → NWF b → addLoop f e a b = .ok p →
        (ResC p.1 ∧ NWF p.1) ∧ NWF p.2 ∧ p.2.value ≤ 0) ∧
      (∀ e a b p, e ≤ 10 → ResC a → NWF a → NWF b → subLoop f e a b = .ok p →
        (ResC p.1 ∧ NWF p.1) ∧ NWF p.2 ∧ p.2.value ≤ 0) ∧
      (∀ e vn a c r, e ≤ 10 → 0 ≤ vn → ResC a → NWF a → NWF c →
        mulLoop f e (N.mk vn []) a c = .ok r → ResC r) ∧
      (∀ e b q r p, e ≤ 9 → NWF b → ResC q → NWF q → ResC r → NWF r →
        divLoop f e b q r = .ok p → (ResC p.1 ∧ NWF p.1) ∧ ResC p.2 ∧ NWF p.2) := by
  intro f
  induction f with
  | zero =>
    refine ⟨?_, ?_, ?_, ?_, ?_, ?_, ?_, ?_⟩ <;> intros <;> simp_all
  | succ f ih =>
    obtain ⟨Leval, Lloop, Lop, Lexec, Ladd, Lsub, Lmul, Ldiv⟩ := ih
    refine ⟨?_, ?_, ?_, ?_, ?_, ?_, ?_, ?_⟩
    · -- evaluate
      intro d n r hd hn h
      rw [evaluate_succ, if_neg (by omega), mkN_nonneg hn.value_nonneg] at h
      simp only [Res.bind_ok] at h
      rcases Lloop (d + 1) n.value n.deferred r (by omega) hn.value_nonneg
        hn.deferred_wf h with hres | ⟨he, hdiv, hbad⟩
      · exact Or.inl hres
      · exact Or.inr ⟨by omega, hdiv, hbad⟩
    · -- evalLoop
      intro e v ops r hele hv hops h
      cases ops with
      | nil =>
        rw [evalLoop_succ_nil] at h
        injection h with h2
        subst h2
        exact Or.inl ⟨by simpa using hv, Or.inl rfl⟩
      | cons o rest =>
        rw [evalLoop_succ_cons] at h
        cases hexec : execute f e o (N.mk v []) with
        | err => rw [hexec] at h; simp at h
        | fuel => rw [hexec] at h; simp at h
        | ok c =>
          rw [hexec] at h
          simp only [Res.bind_ok] at h
          have hcwf : NWF c :=
            ((wf_engine f).2.2.2.1 e o (N.mk v []) (hops o (by simp)) (NWF_num hv)).2 c hexec
          by_cases hl : c.deferred.length > 0
          · rw [if_pos hl] at h
            rw [mkN_nonneg hcwf.value_nonneg] at h
            injection h with h2
            rcases Lexec e o v c hele (hops o (by simp)) hv hexec with
              ⟨hcv, hplain | hhead⟩ | ⟨h10, hdivo, hbadc⟩
            · rw [hplain] at hl
              simp at hl
            · obtain ⟨oh, crest, hcd, hsh⟩ := hhead
              subst h2
              refine Or.inl ⟨by simpa using hcv,
                Or.inr ⟨oh, crest ++ rest, ?_, by simpa using hsh⟩⟩
              simp [hcd]
            · obtain ⟨x, rfl⟩ := isDIVop_elim hdivo
              subst h2
              exact Or.inr ⟨h10, ⟨x, by simp⟩,
                ⟨by simpa using hbadc.1, by simp [hbadc.2]⟩⟩
          · have hcdef : c.deferred = [] := by
              cases hcd2 : c.deferred with
              | nil => rfl
              | cons a l => rw [hcd2] at hl; simp at hl
            rw [if_neg hl] at h
            have hceq : c = N.mk c.value [] := by
              rw [N.ext_iff]
              simp [hcdef]
            rw [hceq] at h
            rcases Lloop e c.value rest r hele hcwf.value_nonneg
              (fun o' ho' => hops o' (by simp [ho'])) h with hres | ⟨h10, ⟨x, hx⟩, hbad⟩
            · exact Or.inl hres
            · exact Or.inr ⟨h10, ⟨x, by simp [hx]⟩, hbad⟩
    · -- op
      intro d n o r hd hn ho h
      rw [op_succ] at h
      have hq : ∀ o' ∈ n.deferred ++ [o], OPWF o' := by
        intro o' ho'
        rcases List.mem_append.mp ho' with h1 | h1
        · exact hn.deferred_wf o' h1
        · simp at h1
          subst h1
          exact ho
      rw [mkN_nonneg hn.value_nonneg] at h
      simp only [Res.bind_ok] at h
      rcases Leval d (N.mk n.value (n.deferred ++ [o])) r hd
        (NWF.mk _ _ hn.value_nonneg hq) h with hres | ⟨h9, hdiv, hbad⟩
      · exact Or.inl hres
      · exact Or.inr ⟨h9, by simpa using hdiv, hbad⟩
    · -- execute
      intro e o v c hele ho hv h
      cases o with
      | INC =>
        rw [execute_succ_INC] at h
        simp only [N.value_mk, N.deferred_mk] at h
        rw [mkN_nonneg (by omega)] at h
        injection h with h2
        subst h2
        exact Or.inl ⟨by simp only [N.value_mk]; omega, Or.inl rfl⟩
      | DEC =>
        rw [execute_succ_DEC] at h
        simp only [N.value_mk, N.deferred_mk] at h
        by_cases hv0 : v = 0
        · rw [if_pos hv0] at h
          subst hv0
          by_cases he9 : e ≤ 9
          · rcases Lop e (N.mk 0 []) .DEC c he9 (NWF_num le_rfl) OPWF.dec h with
              hres | ⟨h9, ⟨x, hx⟩, hbad⟩
            · exact Or.inl hres
            · simp at hx
          · obtain ⟨hcshape, _⟩ := op10_shape (by omega) h
            subst hcshape
            exact Or.inl ⟨by simp, Or.inr ⟨.DEC, [], by simp, Or.inl ⟨by simp, rfl⟩⟩⟩
        · rw [if_neg hv0] at h
          rw [mkN_nonneg (by omega)] at h
          injection h with h2
          subst h2
          exact Or.inl ⟨by simp only [N.value_mk]; omega, Or.inl rfl⟩
      | ADD b =>
        rw [execute_succ_ADD] at h
        have hwb : NWF b := by cases ho with | add _ hb => exact hb
        cases hloop : addLoop f e (N.mk v []) b with
        | err => rw [hloop] at h; simp at h
        | fuel => rw [hloop] at h; simp at h
        | ok p =>
          rw [hloop] at h
          simp only [Res.bind_ok] at h
          obtain ⟨⟨hp1r, hp1w⟩, hp2w, hp2v⟩ :=
            Ladd e (N.mk v []) b p hele ⟨by simpa using hv, Or.inl rfl⟩ (NWF_num hv) hwb hloop
          by_cases hl : p.2.deferred.length > 0
          · rw [if_pos hl] at h
            have hp2ne : p.2.deferred ≠ [] := by
              cases hpd : p.2.deferred with
              | nil => rw [hpd] at hl; simp at hl
              | cons a l => simp
            obtain ⟨hp1v, hp1plain | hp1head⟩ := hp1r
            · have hp1eq : p.1 = N.mk p.1.value [] := by
                rw [N.ext_iff]
                simp [hp1plain]
              rw [hp1eq] at h
              rcases add0_safe f e p.1.value p.2 hp1v hp2v hp2ne with hok | hfuel
              · rw [h] at hok
                injection hok with h2
                subst h2
                exact Or.inl ⟨by simpa using hp1v,
                  Or.inr ⟨.ADD p.2, [], rfl, Or.inr ⟨p.2, rfl, hp2v, hp2ne⟩⟩⟩
              · rw [h] at hfuel
                simp at hfuel
            · obtain ⟨oh, rest, hdef, hsh⟩ := hp1head
              have hp1eq : p.1 = N.mk p.1.value (oh :: rest) := by
                rw [N.ext_iff]
                simp [hdef]
              rw [hp1eq] at h
              rcases probe_append_safe2 f e p.1.value oh rest (.ADD p.2) hsh hp1v with
                hok | hfuel
              · rw [h] at hok
                injection hok with h2
                subst h2
                exact Or.inl ⟨by simpa using hp1v,
                  Or.inr ⟨oh, rest ++ [OP.ADD p.2], rfl, hsh⟩⟩
              · rw [h] at hfuel
                simp at hfuel
          · rw [if_neg hl] at h
            injection h with h2
            subst h2
            exact Or.inl hp1r
      | SUB b =>
        rw [execute_succ_SUB] at h
        have hwb : NWF b := by cases ho with | sub _ hb => exact hb
        cases hloop : subLoop f e (N.mk v []) b with
        | err => rw [hloop] at h; simp at h
        | fuel => rw [hloop] at h; simp at h
        | ok p =>
          rw [hloop] at h
          simp only [Res.bind_ok] at h
          obtain ⟨⟨hp1r, hp1w⟩, hp2w, hp2v⟩ :=
            Lsub e (N.mk v []) b p hele ⟨by simpa using hv, Or.inl rfl⟩ (NWF_num hv) hwb hloop
          by_cases hl : p.2.deferred.length > 0
          · rw [if_pos hl] at h
            have hp2ne : p.2.deferred ≠ [] := by
              cases hpd : p.2.deferred with
              | nil => rw [hpd] at hl; simp at hl
              | cons a l => simp
            obtain ⟨hp1v, hp1plain | hp1head⟩ := hp1r
            · have hp1eq : p.1 = N.mk p.1.value [] := by
                rw [N.ext_iff]
                simp [hp1plain]
              rw [hp1eq] at h
              rcases add0_safe f e p.1.value p.2 hp1v hp2v hp2ne with hok | hfuel
              · rw [h] at hok
                injection hok with h2
                subst h2
                exact Or.inl ⟨by simpa using hp1v,
                  Or.inr ⟨.ADD p.2, [], rfl, Or.inr ⟨p.2, rfl, hp2v, hp2ne⟩⟩⟩
              · rw [h] at hfuel
                simp at hfuel
            · obtain ⟨oh, rest, hdef, hsh⟩ := hp1head
              have hp1eq : p.1 = N.mk p.1.value (oh :: rest) := by
                rw [N.ext_iff]
                simp [hdef]
              rw [hp1eq] at h
              rcases probe_append_safe2 f e p.1.value oh rest (.ADD p.2) hsh hp1v with
                hok | hfuel
              · rw [h] at hok
                injection hok with h2
                subst h2
                exact Or.inl ⟨by simpa using hp1v,
                  Or.inr ⟨oh, rest ++ [OP.ADD p.2], rfl, hsh⟩⟩
              · rw [h] at hfuel
                simp at hfuel
          · rw [if_neg hl] at h
            injection h with h2
            subst h2
            exact Or.inl hp1r
      | MUL b =>
        rw [execute_succ_MUL] at h
        have hwb : NWF b := by cases ho with | mul _ hb => exact hb
        exact Or.inl (Lmul e v (N.mk v []) b c hele hv ⟨by simpa using hv, Or.inl rfl⟩
          (NWF_num hv) hwb h)
      | DIV b =>
        rw [execute_succ_DIV] at h
        have hwb : NWF b := by cases ho with | div _ hb => exact hb
        cases hloop : divLoop f e b ZERO (N.mk v []) with
        | err => rw [hloop] at h; simp at h
        | fuel => rw [hloop] at h; simp at h
        | ok p =>
          rw [hloop] at h
          simp only [Res.bind_ok] at h
          by_cases he9 : e ≤ 9
          · obtain ⟨⟨hqr, hqw⟩, hrr, hrw⟩ :=
              Ldiv e b ZERO (N.mk v []) p he9 hwb ⟨by simp [ZERO], Or.inl rfl⟩ NWF_ZERO
                ⟨by simpa using hv, Or.inl rfl⟩ (NWF_num hv) hloop
            by_cases hr0 : p.2.value = 0
            · rw [if_pos hr0] at h
              injection h with h2
              subst h2
              exact Or.inl hqr
            · rw [if_neg hr0] at h
              cases hx : N.op f e p.2 (.DIV b) with
              | err => rw [hx] at h; simp at h
              | fuel => rw [hx] at h; simp at h
              | ok x =>
                rw [hx] at h
                simp only [Res.bind_ok] at h
                have hxw : NWF x :=
                  ((wf_engine f).2.2.1 e p.2 (.DIV b) hrw (OPWF.div b hwb)).2 x hx
                have hxcls : ResC x ∨ BadR x := by
                  obtain ⟨hrv, hrplain | hrhead⟩ := hrr
                  · rcases Lop e p.2 (.DIV b) x he9 hrw (OPWF.div b hwb) hx with
                      hres | ⟨_, _, hbad⟩
                    · exact Or.inl hres
                    · exact Or.inr hbad
                  · obtain ⟨oh, rest, hdef, hsh⟩ := hrhead
                    have hreq : p.2 = N.mk p.2.value (oh :: rest) := by
                      rw [N.ext_iff]
                      simp [hdef]
                    rw [hreq] at hx
                    rcases probe_append_safe2 f e p.2.value oh rest (.DIV b) hsh hrv with
                      hok | hfuel
                    · rw [hx] at hok
                      injection hok with h2
                      subst h2
                      exact Or.inl ⟨by simpa using hrv,
                        Or.inr ⟨oh, rest ++ [OP.DIV b], rfl, hsh⟩⟩
                    · rw [hx] at hfuel
                      simp at hfuel
                obtain ⟨hqv, hqplain | hqhead⟩ := hqr
                · rcases hxcls with hxres | ⟨hx0, hxne⟩
                  · rcases Lop e p.1 (.ADD x) c he9 hqw (OPWF.add x hxw) h with
                      hres | ⟨_, ⟨y, hy⟩, _⟩
                    · exact Or.inl hres
                    · rw [hqplain] at hy
                      simp at hy
                  · have hqeq : p.1 = N.mk p.1.value [] := by
                      rw [N.ext_iff]
                      simp [hqplain]
                    rw [hqeq] at h
                    rcases add0_safe f e p.1.value x hqv (le_of_eq hx0) hxne with hok | hfuel
                    · rw [h] at hok
                      injection hok with h2
                      subst h2
                      exact Or.inl ⟨by simpa using hqv,
                        Or.inr ⟨.ADD x, [], rfl, Or.inr ⟨x, rfl, le_of_eq hx0, hxne⟩⟩⟩
                    · rw [h] at hfuel
                      simp at hfuel
                · obtain ⟨oh, rest, hdef, hsh⟩ := hqhead
                  have hqeq : p.1 = N.mk p.1.value (oh :: rest) := by
                    rw [N.ext_iff]
                    simp [hdef]
                  rw [hqeq] at h
                  rcases probe_append_safe2 f e p.1.value oh rest (.ADD x) hsh hqv with
                    hok | hfuel
                  · rw [h] at hok
                    injection hok with h2
                    subst h2
                    exact Or.inl ⟨by simpa using hqv,
                      Or.inr ⟨oh, rest ++ [OP.ADD x], rfl, hsh⟩⟩
                  · rw [h] at hfuel
                    simp at hfuel
          · have he10 : e = 10 := by omega
            subst he10
            obtain ⟨f', rfl⟩ : ∃ f', f = f' + 1 := by
              cases f with
              | zero => simp at hloop
              | succ f' => exact ⟨f', rfl⟩
            by_cases hcond : (N.mk v [] : N).value ≥ b.value ∧ b.value > 0
            · rw [divLoop_stall10 (f' + 1) b ZERO (N.mk v []) hwb NWF_ZERO (NWF_num hv)
                hcond.1 hcond.2] at hloop
              simp at hloop
            · rw [divLoop_succ, if_neg hcond] at hloop
              injection hloop with h2
              obtain ⟨hp1, hp2⟩ : p.1 = ZERO ∧ p.2 = N.mk v [] := by
                rw [← h2]
                exact ⟨rfl, rfl⟩
              rw [hp1, hp2] at h
              simp only [N.value_mk] at h
              by_cases hv0 : v = 0
              · rw [if_pos hv0] at h
                injection h with h3
                subst h3
                exact Or.inl ⟨by simp [ZERO], Or.inl rfl⟩
              · rw [if_neg hv0] at h
                cases hx : N.op (f' + 1) 10 (N.mk v []) (.DIV b) with
                | err => rw [hx] at h; simp at h
                | fuel => rw [hx] at h; simp at h
                | ok x =>
                  rw [hx] at h
                  simp only [Res.bind_ok] at h
                  obtain ⟨hceq, _⟩ := op10_shape le_rfl h
                  subst hceq
                  exact Or.inr ⟨rfl, True.intro, ⟨by simp [ZERO], by simp [ZERO]⟩⟩
    · -- addLoop
      intro e a b p hele har haw hbw h
      by_cases he9 : e ≤ 9
      · rw [addLoop_succ] at h
        by_cases hbv : b.value > 0
        · rw [if_pos hbv] at h
          cases hopa : N.op f e a .INC with
          | err => rw [hopa] at h; simp at h
          | fuel => rw [hopa] at h; simp at h
          | ok a2 =>
            rw [hopa] at h
            simp only [Res.bind_ok] at h
            have ha2w : NWF a2 := ((wf_engine f).2.2.1 e a .INC haw OPWF.inc).2 a2 hopa
            have ha2r : ResC a2 :=
              probe_resc f Lop e a .INC a2 he9 har haw OPWF.inc (by simp) hopa
            cases hopb : N.op f e b .DEC with
            | err => rw [hopb] at h; simp at h
            | fuel => rw [hopb] at h; simp at h
            | ok b2 =>
              rw [hopb] at h
              simp only [Res.bind_ok] at h
              have hb2w : NWF b2 := ((wf_engine f).2.2.1 e b .DEC hbw OPWF.dec).2 b2 hopb
              exact Ladd e a2 b2 p hele ha2r ha2w hb2w h
        · rw [if_neg hbv] at h
          injection h with h2
          obtain ⟨hp1, hp2⟩ : p.1 = a ∧ p.2 = b := by
            rw [← h2]
            exact ⟨rfl, rfl⟩
          rw [hp1, hp2]
          exact ⟨⟨har, haw⟩, hbw, by omega⟩
      · have he10 : e = 10 := by omega
        subst he10
        by_cases hbv : 0 < b.value
        · rw [addLoop_stall10 (f + 1) a b haw hbw hbv] at h
          simp at h
        · rw [addLoop_succ, if_neg (by omega)] at h
          injection h with h2
          obtain ⟨hp1, hp2⟩ : p.1 = a ∧ p.2 = b := by
            rw [← h2]
            exact ⟨rfl, rfl⟩
          rw [hp1, hp2]
          exact ⟨⟨har, haw⟩, hbw, by omega⟩
    · -- subLoop
      intro e a b p hele har haw hbw h
      by_cases he9 : e ≤ 9
      · rw [subLoop_succ] at h
        by_cases hbv : b.value > 0
        · rw [if_pos hbv] at h
          cases hopa : N.op f e a .DEC with
          | err => rw [hopa] at h; simp at h
          | fuel => rw [hopa] at h; simp at h
          | ok a2 =>
            rw [hopa] at h
            simp only [Res.bind_ok] at h
            have ha2w : NWF a2 := ((wf_engine f).2.2.1 e a .DEC haw OPWF.dec).2 a2 hopa
            have ha2r : ResC a2 :=
              probe_resc f Lop e a .DEC a2 he9 har haw OPWF.dec (by simp) hopa
            cases hopb : N.op f e b .DEC with
            | err => rw [hopb] at h; simp at h
            | fuel => rw [hopb] at h; simp at h
            | ok b2 =>
              rw [hopb] at h
              simp only [Res.bind_ok] at h
              have hb2w : NWF b2 := ((wf_engine f).2.2.1 e b .DEC hbw OPWF.dec).2 b2 hopb
              exact Lsub e a2 b2 p hele ha2r ha2w hb2w h
        · rw [if_neg hbv] at h
          injection h with h2
          obtain ⟨hp1, hp2⟩ : p.1 = a ∧ p.2 = b := by
            rw [← h2]
            exact ⟨rfl, rfl⟩
          rw [hp1, hp2]
          exact ⟨⟨har, haw⟩, hbw, by omega⟩
      · have he10 : e = 10 := by omega
        subst he10
        by_cases hbv : 0 < b.value
        · rw [subLoop_stall10 (f + 1) a b haw hbw hbv] at h
          simp at h
        · rw [subLoop_succ, if_neg (by omega)] at h
          injection h with h2
          obtain ⟨hp1, hp2⟩ : p.1 = a ∧ p.2 = b := by
            rw [← h2]
            exact ⟨rfl, rfl⟩
          rw [hp1, hp2]
          exact ⟨⟨har, haw⟩, hbw, by omega⟩
    · -- mulLoop
      intro e vn a c r hele hvn har haw hcw h
      by_cases he9 : e ≤ 9
      · rw [mulLoop_succ] at h
        by_cases hcv : c.value > 1
        · rw [if_pos hcv] at h
          cases hopa : N.op f e a (.ADD (N.mk vn [])) with
          | err => rw [hopa] at h; simp at h
          | fuel => rw [hopa] at h; simp at h
          | ok a2 =>
            rw [hopa] at h
            simp only [Res.bind_ok] at h
            have ha2w : NWF a2 :=
              ((wf_engine f).2.2.1 e a (.ADD (N.mk vn [])) haw
                (OPWF.add _ (NWF_num hvn))).2 a2 hopa
            have ha2r : ResC a2 :=
              probe_resc f Lop e a (.ADD (N.mk vn [])) a2 he9 har haw
                (OPWF.add _ (NWF_num hvn)) (by simp) hopa
            cases hopc : N.op f e c .DEC with
            | err => rw [hopc] at h; simp at h
            | fuel => rw [hopc] at h; simp at h
            | ok c2 =>
              rw [hopc] at h
              simp only [Res.bind_ok] at h
              have hc2w : NWF c2 := ((wf_engine f).2.2.1 e c .DEC hcw OPWF.dec).2 c2 hopc
              exact Lmul e vn a2 c2 r hele hvn ha2r ha2w hc2w h
        · rw [if_neg hcv] at h
          injection h with h2
          subst h2
          exact har
      · have he10 : e = 10 := by omega
        subst he10
        by_cases hcv : 1 < c.value
        · rw [mulLoop_stall10 (f + 1) (N.mk vn []) a c (NWF_num hvn) haw hcw hcv] at h
          simp at h
        · rw [mulLoop_succ, if_neg (by omega)] at h
          injection h with h2
          subst h2
          exact har
    · -- divLoop
      intro e b q r p hele hbw hqr hqw hrr hrw h
      rw [divLoop_succ] at h
      by_cases hcond : r.value ≥ b.value ∧ b.value > 0
      · rw [if_pos hcond] at h
        cases hopr : N.op f e r (.SUB b) with
        | err => rw [hopr] at h; simp at h
        | fuel => rw [hopr] at h; simp at h
        | ok r2 =>
          rw [hopr] at h
          simp only [Res.bind_ok] at h
          have hr2w : NWF r2 :=
            ((wf_engine f).2.2.1 e r (.SUB b) hrw (OPWF.sub b hbw)).2 r2 hopr
          have hr2r : ResC r2 :=
            probe_resc f Lop e r (.SUB b) r2 hele hrr hrw (OPWF.sub b hbw) (by simp) hopr
          cases hopq : N.op f e q .INC with
          | err => rw [hopq] at h; simp at h
          | fuel => rw [hopq] at h; simp at h
          | ok q2 =>
            rw [hopq] at h
            simp only [Res.bind_ok] at h
            have hq2w : NWF q2 := ((wf_engine f).2.2.1 e q .INC hqw OPWF.inc).2 q2 hopq
            have hq2r : ResC q2 :=
              probe_resc f Lop e q .INC q2 hele hqr hqw OPWF.inc (by simp) hopq
            exact Ldiv e b q2 r2 p hele hbw hq2r hq2w hr2r hr2w h
      · rw [if_neg hcond] at h
        injection h with h2
        obtain ⟨hp1, hp2⟩ : p.1 = q ∧ p.2 = r := by
          rw [← h2]
          exact ⟨rfl, rfl⟩
        rw [hp1, hp2]
        exact ⟨⟨hqr, hqw⟩, hrr, hrw⟩

/-- C9: draining is a fixed point for op-produced Values — every Value a
top-level public `op` call returns normally (fully resolved or left with
deferred work) is returned identically (same magnitude and same queue,
hence the same `render`/`toString` output) by any further `evaluate()`
call given enough fuel, and therefore by any number of repeated drains. -/
theorem c9_drain_fixed_point (f : Nat) (n : N) (o : OP) (r : N)
    (hn : NWF n) (ho : OPWF o) (h : opTop f n o = .ok r) :
    ∃ G, ∀ g, G ≤ g → evalTop g r = .ok r := by
  have hcls : ResC r := by
    rcases ((classify_engine f).2.2.1 0 n o r (by omega) hn ho h) with hres | ⟨h9, _, _⟩
    · exact hres
    · omega
  rcases hcls with ⟨hrv, hplain | hhead⟩
  · refine ⟨2, fun g hg => ?_⟩
    obtain ⟨g', rfl⟩ : ∃ g', g = g' + 1 + 1 := ⟨g - 2, by omega⟩
    show N.evaluate (g' + 1 + 1) 0 r = .ok r
    rw [evaluate_eq_loop (by omega) hrv, hplain, evalLoop_succ_nil]
    have hre : N.mk r.value [] = r := by
      rw [N.ext_iff]
      simp [hplain]
    rw [hre]
  · obtain ⟨oh, rest, hdef, hsh⟩ := hhead
    obtain ⟨F, hF⟩ := exec_shead_total (e := 0 + 1) hsh hrv
    refine ⟨F + 2, fun g hg => ?_⟩
    obtain ⟨g', rfl⟩ : ∃ g', g = g' + 1 + 1 := ⟨g - 2, by omega⟩
    show N.evaluate (g' + 1 + 1) 0 r = .ok r
    rw [evaluate_eq_loop (by omega) hrv, hdef, evalLoop_succ_cons]
    rw [hF g' (by omega)]
    simp only [Res.bind_ok]
    rw [if_pos (by simp)]
    simp only [N.value_mk, N.deferred_mk]
    rw [mkN_nonneg hrv]
    have hre : N.mk r.value ([oh] ++ rest) = r := by
      rw [N.ext_iff]
      simp [hdef]
    rw [hre]

theorem c9_drain_fixed_point_witness :
    ∃ G, ∀ g, G ≤ g → evalTop g (N.mk 0 [.DEC]) = .ok (N.mk 0 [.DEC]) :=
  c9_drain_fixed_point 100 (N.mk 0 []) (.SUB (N.mk 1 [])) (N.mk 0 [.DEC])
    (NWF_num le_rfl) (OPWF.sub _ (NWF_num (by norm_num))) rfl
